import Mathlib

/-!
Shallow embedding of `pluralsight/env-verifier` (`src/index.ts`) and proofs
about its resolver (`recursiveVerify` and friends), its redactor
(`recursiveToString` and friends) and the public entry points `verify` and
`strictVerify`.

Modelling choices, stated once:

* JS objects are association lists `List (String × _)` in insertion order
  (JS TypeScript objects in this library are built by object literals and
  spreads, so insertion order is the iteration order of `Object.keys`).
* A JS value appearing in a resolved config is a `Value`: a string, the
  JS `undefined`, an abstract non-string literal (`lit`, standing for the
  arbitrary payloads of `insert` and of transform-function results), or a
  nested object.
* The environment (`{ [key: string]: string | undefined }`) is a function
  `String → Option String`; an absent key and a key explicitly mapped to
  `undefined` are both `none`, exactly as `env[key] === undefined` in JS.
* `Error` objects are represented by their `message` strings (the library
  itself only ever reads `.message` from them, in `verify`).
* Fallible code paths of the redactor (a secret path whose parent key is
  absent from the config, resolves to a non-object, or whose suffix does
  not match the splitting regex `/\.(.+)/`) make the JS code throw a
  `TypeError` or produce spread-coercion nonsense; the model returns
  `none` there, so `Option` failure marks "outside the defined behaviour".
-/

namespace EnvVerifier

/-- A resolved JS value: string, `undefined`, an abstract non-string literal
(payload of `insert` or result of a transform function), or a nested
object given as an insertion-ordered association list. -/
inductive Value where
  | str : String → Value
  | undef : Value
  | lit : Nat → Value
  | obj : List (String × Value) → Value

/-- A schema node (`ConfigWithEnvKeys` values in the source): a plain
environment-key string, a transform tuple `[envKey, fn]`, an `InsertValue`,
a `SecretValue` wrapper, or a nested object. -/
inductive ConfigNode where
  | envKey : String → ConfigNode
  | transform : String → (String → Value) → ConfigNode
  | insertVal : Value → ConfigNode
  | secretVal : ConfigNode → ConfigNode
  | node : List (String × ConfigNode) → ConfigNode

/-- The environment: variable name to string-or-absent. -/
def Env : Type := String → Option String

/-- Source function `insert`: wrap a literal value. -/
def insert (value : Value) : ConfigNode := ConfigNode.insertVal value

/-- Source function `secret`: wrap a schema node. -/
def secret (value : ConfigNode) : ConfigNode := ConfigNode.secretVal value

mutual

/-- Termination weight of a schema node.  A `secretVal` is heavier than the
synthetic one-entry object `[("secret", x)]` that the resolver traverses
for a doubly wrapped secret. -/
def ConfigNode.w : ConfigNode → Nat
  | .envKey _ => 0
  | .transform _ _ => 0
  | .insertVal _ => 0
  | .secretVal inner => 4 + ConfigNode.w inner
  | .node entries => 1 + wEntries entries

/-- Termination weight of an entry list. -/
def wEntries : List (String × ConfigNode) → Nat
  | [] => 0
  | e :: rest => 1 + ConfigNode.w e.2 + wEntries rest

end

/-- The error message built by `getEnvValueOrErrorCurried`. -/
def missingMsg (key subPath : String) : String :=
  "environment value " ++ key ++ " is missing from config object at " ++ subPath

/-- Source function `getEnvValueOrErrorCurried`: look `key` up in `env`;
absent or empty string yields `undefined` plus one error, otherwise the
raw value and no error. -/
def getEnvValueOrErrorCurried (env : Env) (subPath : String) (key : String) :
    Option String × List String :=
  match env key with
  | none => (none, [missingMsg key subPath])
  | some v => if v.length = 0 then (none, [missingMsg key subPath]) else (some v, [])

/-- Source function `unwrapMaybeSecret`: peel one `SecretValue` wrapper,
recording `path`; anything else passes through with no secret recorded. -/
def unwrapMaybeSecret (maybeSecret : ConfigNode) (path : String) :
    ConfigNode × List String :=
  match maybeSecret with
  | .secretVal inner => (inner, [path])
  | other => (other, [])

/-- The sub-path computation of `getMapConfigFunction`:
`path.length === 0 ? key : path + "." + key`. -/
def joinPath (path key : String) : String :=
  if path.length = 0 then key else path ++ "." ++ key

/-- JS object spread `{...a, ...b}` on association lists: keys of `a` keep
their position with values overridden by `b`, keys of `b` not in `a` are
appended in `b`'s order. -/
def spreadMerge (a b : List (String × Value)) : List (String × Value) :=
  a.map (fun e => (e.1, (b.lookup e.1).getD e.2)) ++
    b.filter (fun e => !(a.map Prod.fst).contains e.1)

/-- Accumulator of `recursiveVerify`'s reduce. -/
structure VerifyAcc where
  config : List (String × Value)
  errors : List String
  secrets : List String

/-- The result of `getMapConfigFunction` for one key: the single-key config
fragment `{ [key]: value }` as a pair, the errors and the secret paths. -/
def EntryResult : Type := (String × Value) × List String × List String

/-- Source function `reduceConf`. -/
def reduceConf (acc : VerifyAcc) (r : EntryResult) : VerifyAcc :=
  { config := spreadMerge acc.config [r.1],
    errors := acc.errors ++ r.2.1,
    secrets := acc.secrets ++ r.2.2 }

mutual

/-- Source function `getMapConfigFunction`, at one key.  Dispatch order in
the source: unwrap a possible secret, then `InsertValue`, then array
(transform tuple), then string, else recurse as an object.  A doubly
wrapped secret falls into the object branch, and JS traverses the inner
`SecretValue` instance as a plain object whose single own key is
`"secret"`. -/
def getMapConfigFunction (env : Env) (path : String) (key : String)
    (maybeSecret : ConfigNode) : EntryResult :=
  let subPath := joinPath path key
  let secrets := (unwrapMaybeSecret maybeSecret subPath).2
  match h : (unwrapMaybeSecret maybeSecret subPath).1 with
  | .insertVal v => ((key, v), [], secrets)
  | .transform envKeyName transformFn =>
      let looked := getEnvValueOrErrorCurried env subPath envKeyName
      let transformedValue := match looked.1 with
        | none => Value.undef
        | some s => transformFn s
      ((key, transformedValue), looked.2, secrets)
  | .envKey name =>
      let looked := getEnvValueOrErrorCurried env subPath name
      ((key, match looked.1 with | none => Value.undef | some s => Value.str s),
        looked.2, secrets)
  | .node entries =>
      let rs := (recursiveVerifyList env subPath entries).foldl reduceConf ⟨[], [], []⟩
      ((key, Value.obj rs.config), rs.errors, rs.secrets)
  | .secretVal inner2 =>
      let rs := (recursiveVerifyList env subPath [("secret", inner2)]).foldl
        reduceConf ⟨[], [], []⟩
      ((key, Value.obj rs.config), rs.errors, rs.secrets)
termination_by (ConfigNode.w maybeSecret, 0)
decreasing_by
  · apply Prod.Lex.left
    cases maybeSecret <;> simp_all [unwrapMaybeSecret, ConfigNode.w, wEntries] <;> omega
  · apply Prod.Lex.left
    cases maybeSecret <;> simp_all [unwrapMaybeSecret, ConfigNode.w, wEntries] <;> omega

/-- The `Object.keys(config).map(mapConf)` step of `recursiveVerify`,
written as explicit recursion over the entry list. -/
def recursiveVerifyList (env : Env) (path : String) :
    List (String × ConfigNode) → List EntryResult
  | [] => []
  | e :: rest =>
      getMapConfigFunction env path e.1 e.2 :: recursiveVerifyList env path rest
termination_by entries => (wEntries entries, 1)
decreasing_by
  all_goals apply Prod.Lex.left
  all_goals simp [wEntries]
  all_goals omega

end

/-- Source function `recursiveVerify`: map `getMapConfigFunction` over the
keys, then reduce with `reduceConf` from the empty accumulator. -/
def recursiveVerify (env : Env) (path : String)
    (entries : List (String × ConfigNode)) : VerifyAcc :=
  (recursiveVerifyList env path entries).foldl reduceConf ⟨[], [], []⟩

/-- Does the string contain a `.`?  This is the source's nesting test
`secret.split(".").length > 1` from `seperateSecretsByNestLevel`. -/
def containsDot (s : String) : Bool := s.data.contains '.'

/-- Source function `seperateSecretsByNestLevel`: split the secret paths into
the non-nested ones (no `.`) and the nested ones, preserving order.  The
source computes the non-nested ones as those not contained in the nested
list, which for distinct-by-dot classification is the same filter. -/
def seperateSecretsByNestLevel (secrets : List String) : List String × List String :=
  let nestedSecrets := secrets.filter (fun s => containsDot s)
  let nonNested := secrets.filter (fun s => ¬ nestedSecrets.contains s)
  (nonNested, nestedSecrets)

/-- Split a character list at its first `.`. -/
def splitFirstDotAux : List Char → Option (List Char × List Char)
  | [] => none
  | c :: cs =>
      if c = '.' then some ([], cs)
      else (splitFirstDotAux cs).map (fun p => (c :: p.1, p.2))

/-- Source function `seperateParentFromChildren`: `path.split(/\.(.+)/)`.
The regex matches at the first `.` that is followed by at least one
character, so the split succeeds exactly when the path has a dot that is
not its final character; on success it yields the part before the first
dot and everything after it. -/
def seperateParentFromChildren (path : String) : Option (String × String) :=
  match splitFirstDotAux path.data with
  | some (a, b) => if b.isEmpty then none else some (String.mk a, String.mk b)
  | none => none

/-- The `deepSecrets.map(seperateParentFromChildren)` step of
`recursiveToString`.  In the source a failed split produces an `undefined`
children component, on which the recursive call's `seperateSecretsByNestLevel`
filter then throws a `TypeError`; the model surfaces that as `none`. -/
def splitAll : List String → Option (List (String × String))
  | [] => some []
  | s :: rest =>
      match seperateParentFromChildren s with
      | none => none
      | some pc => (splitAll rest).map (fun l => pc :: l)

/-- One step of the grouping reduce of `recursiveToString`:
`{...acc, [parent]: acc[parent] ? acc[parent].concat(children) : [children]}`.
Updating an existing key keeps its position; a new key is appended. -/
def groupStep (acc : List (String × List String)) (pc : String × String) :
    List (String × List String) :=
  if (acc.map Prod.fst).contains pc.1 then
    acc.map (fun e => if e.1 = pc.1 then (e.1, e.2 ++ [pc.2]) else e)
  else acc ++ [(pc.1, [pc.2])]

mutual

/-- Termination weight of a resolved value. -/
def Value.vsize : Value → Nat
  | .obj entries => 1 + vlsize entries
  | _ => 0

/-- Termination weight of a resolved entry list. -/
def vlsize : List (String × Value) → Nat
  | [] => 0
  | e :: rest => 1 + Value.vsize e.2 + vlsize rest

end

/-- A successful lookup returns a value of smaller weight than the list. -/
theorem vsize_lookup :
    ∀ {l : List (String × Value)} {k : String} {v : Value},
      l.lookup k = some v → Value.vsize v < vlsize l := by
  intro l
  induction l with
  | nil => intro k v h; simp [List.lookup] at h
  | cons e rest ih =>
      intro k v h
      obtain ⟨a, b⟩ := e
      simp only [List.lookup] at h
      by_cases hk : (k == a) = true
      · simp only [hk] at h
        cases h
        simp [vlsize]
        omega
      · have hk' : (k == a) = false := by simpa using hk
        simp only [hk'] at h
        have := ih h
        simp [vlsize]
        omega

mutual

/-- Source function `recursiveToString` — the redactor.  Non-nested secret
keys present in the config are replaced by the marker string; nested
secrets are grouped by their first path segment, the redactor recurses
into the corresponding child value, and the three layers are merged by
JS spread `{...config, ...sanatizedSecrets, ...nestedSanatizedSecrets}`.
If a grouped parent is absent from the config or its value is not an
object, the JS code throws or produces spread-coercion nonsense; the
model returns `none` there. -/
def recursiveToString (secrets : List String) (config : List (String × Value)) :
    Option (List (String × Value)) :=
  let separated := seperateSecretsByNestLevel secrets
  let secretKeys := (config.map Prod.fst).filter (fun k => separated.1.contains k)
  match splitAll separated.2 with
  | none => none
  | some parentChildren =>
      let grouped := parentChildren.foldl groupStep []
      match redactParentList config grouped with
      | none => none
      | some nested =>
          some (spreadMerge
            (spreadMerge config (secretKeys.map (fun k => (k, Value.str "[secret]"))))
            nested)
termination_by (vlsize config, 1, 0)
decreasing_by
  · apply Prod.Lex.right
    apply Prod.Lex.left
    omega

/-- The `Object.keys(groupedNestedSecrets).reduce` step of
`recursiveToString`: redact each grouped parent's child value with the
grouped suffixes, building the `nestedSanatizedSecrets` object. -/
def redactParentList (config : List (String × Value)) :
    List (String × List String) → Option (List (String × Value))
  | [] => some []
  | psufs :: rest =>
      match h : config.lookup psufs.1 with
      | some (Value.obj sub) =>
          match recursiveToString psufs.2 sub with
          | none => none
          | some r =>
              match redactParentList config rest with
              | none => none
              | some rs => some ((psufs.1, Value.obj r) :: rs)
      | some (Value.str _) => none
      | some Value.undef => none
      | some (Value.lit _) => none
      | none => none
termination_by l => (vlsize config, 0, l.length)
decreasing_by
  · apply Prod.Lex.left
    have := vsize_lookup h
    simp [Value.vsize] at this
    omega
  · apply Prod.Lex.right
    apply Prod.Lex.right
    simp [List.length_cons]

end

/-- Result of `verify`: the resolved config and the error message list. -/
structure VerifyResult where
  config : List (String × Value)
  errors : List String

/-- Source function `verify`, pure part: resolve with an empty root path and
keep the config and the error messages.  (The prototype mutation performed
when secrets exist is modelled separately by `verifyS`.) -/
def verify (config : List (String × ConfigNode)) (env : Env) : VerifyResult :=
  let r := recursiveVerify env "" config
  { config := r.config, errors := r.errors }

/-- The mutable slot `Object.prototype.toString`.  Every plain JS object —
in particular every config object this library returns — inherits it.
When the slot holds `some (secrets, builtConfig)` it is the closure
`toStringCurried(secrets, builtConfig)` installed by some earlier call of
`verify`; `none` is the pristine built-in. -/
structure ProtoState where
  toStringSlot : Option (List String × List (String × Value))

/-- Source function `verify` including its effect: after resolving, when the
secret list is non-empty it executes
`builtConfig.__proto__.toString = toStringCurried(secrets, builtConfig)`.
Since `builtConfig` is a plain object, `builtConfig.__proto__` is the
global `Object.prototype`, so the assignment writes the shared slot. -/
def verifyS (config : List (String × ConfigNode)) (env : Env) (st : ProtoState) :
    VerifyResult × ProtoState :=
  let r := recursiveVerify env "" config
  ({ config := r.config, errors := r.errors },
    if r.secrets.length ≠ 0 then { toStringSlot := some (r.secrets, r.config) } else st)

/-- Source function `strictVerify`: run `verify`; if any error exists, fail
with the aggregate message, else return the resolved config. -/
def strictVerify (config : List (String × ConfigNode)) (env : Env) :
    Except String (List (String × Value)) :=
  let r := verify config env
  if r.errors.length > 0 then
    Except.error ("Missing configuration values: " ++ String.intercalate "\n" r.errors)
  else
    Except.ok r.config

/-! ### Unfolding equations for the resolver -/

theorem recursiveVerifyList_nil (env : Env) (path : String) :
    recursiveVerifyList env path [] = [] := by
  rw [recursiveVerifyList]

theorem recursiveVerifyList_cons (env : Env) (path : String)
    (e : String × ConfigNode) (rest : List (String × ConfigNode)) :
    recursiveVerifyList env path (e :: rest) =
      getMapConfigFunction env path e.1 e.2 :: recursiveVerifyList env path rest := by
  rw [recursiveVerifyList]

theorem recursiveVerifyList_eq_map (env : Env) (path : String)
    (entries : List (String × ConfigNode)) :
    recursiveVerifyList env path entries =
      entries.map (fun e => getMapConfigFunction env path e.1 e.2) := by
  induction entries with
  | nil => rw [recursiveVerifyList_nil, List.map_nil]
  | cons e rest ih => rw [recursiveVerifyList_cons, List.map_cons, ih]

theorem getMapConfigFunction_insertVal (env : Env) (path key : String) (v : Value) :
    getMapConfigFunction env path key (.insertVal v) = ((key, v), [], []) := by
  rw [getMapConfigFunction]
  simp [unwrapMaybeSecret]

theorem getMapConfigFunction_secret_insertVal (env : Env) (path key : String) (v : Value) :
    getMapConfigFunction env path key (.secretVal (.insertVal v)) =
      ((key, v), [], [joinPath path key]) := by
  rw [getMapConfigFunction]
  simp [unwrapMaybeSecret]

theorem getMapConfigFunction_envKey (env : Env) (path key name : String) :
    getMapConfigFunction env path key (.envKey name) =
      ((key, match (getEnvValueOrErrorCurried env (joinPath path key) name).1 with
          | none => Value.undef
          | some s => Value.str s),
        (getEnvValueOrErrorCurried env (joinPath path key) name).2, []) := by
  rw [getMapConfigFunction]
  simp [unwrapMaybeSecret]

theorem getMapConfigFunction_secret_envKey (env : Env) (path key name : String) :
    getMapConfigFunction env path key (.secretVal (.envKey name)) =
      ((key, match (getEnvValueOrErrorCurried env (joinPath path key) name).1 with
          | none => Value.undef
          | some s => Value.str s),
        (getEnvValueOrErrorCurried env (joinPath path key) name).2,
        [joinPath path key]) := by
  rw [getMapConfigFunction]
  simp [unwrapMaybeSecret]

theorem getMapConfigFunction_transform (env : Env) (path key name : String)
    (fn : String → Value) :
    getMapConfigFunction env path key (.transform name fn) =
      ((key, match (getEnvValueOrErrorCurried env (joinPath path key) name).1 with
          | none => Value.undef
          | some s => fn s),
        (getEnvValueOrErrorCurried env (joinPath path key) name).2, []) := by
  rw [getMapConfigFunction]
  simp [unwrapMaybeSecret]

theorem getMapConfigFunction_secret_transform (env : Env) (path key name : String)
    (fn : String → Value) :
    getMapConfigFunction env path key (.secretVal (.transform name fn)) =
      ((key, match (getEnvValueOrErrorCurried env (joinPath path key) name).1 with
          | none => Value.undef
          | some s => fn s),
        (getEnvValueOrErrorCurried env (joinPath path key) name).2,
        [joinPath path key]) := by
  rw [getMapConfigFunction]
  simp [unwrapMaybeSecret]

theorem getMapConfigFunction_node (env : Env) (path key : String)
    (es : List (String × ConfigNode)) :
    getMapConfigFunction env path key (.node es) =
      ((key, Value.obj (recursiveVerify env (joinPath path key) es).config),
        (recursiveVerify env (joinPath path key) es).errors,
        (recursiveVerify env (joinPath path key) es).secrets) := by
  rw [getMapConfigFunction]
  simp [unwrapMaybeSecret, recursiveVerify]

/-- The branch that loses the secret path: a `SecretValue` wrapping a nested
object resolves through the object branch, which returns only the
recursive call's secrets, dropping the `[subPath]` recorded by
`unwrapMaybeSecret` (`index.ts` line 124). -/
theorem getMapConfigFunction_secret_node (env : Env) (path key : String)
    (es : List (String × ConfigNode)) :
    getMapConfigFunction env path key (.secretVal (.node es)) =
      ((key, Value.obj (recursiveVerify env (joinPath path key) es).config),
        (recursiveVerify env (joinPath path key) es).errors,
        (recursiveVerify env (joinPath path key) es).secrets) := by
  rw [getMapConfigFunction]
  simp [unwrapMaybeSecret, recursiveVerify]

/-- A doubly wrapped secret resolves by traversing the inner `SecretValue`
instance as a plain object with the single own key `"secret"`; its own
recorded path is dropped just as in the nested-object branch. -/
theorem getMapConfigFunction_secret_secret (env : Env) (path key : String)
    (x : ConfigNode) :
    getMapConfigFunction env path key (.secretVal (.secretVal x)) =
      ((key, Value.obj (recursiveVerify env (joinPath path key) [("secret", x)]).config),
        (recursiveVerify env (joinPath path key) [("secret", x)]).errors,
        (recursiveVerify env (joinPath path key) [("secret", x)]).secrets) := by
  rw [getMapConfigFunction]
  simp [unwrapMaybeSecret, recursiveVerify]

/-- The key of the single-key fragment returned for a key is that key. -/
theorem getMapConfigFunction_key (env : Env) (path key : String) (c : ConfigNode) :
    (getMapConfigFunction env path key c).1.1 = key := by
  cases c with
  | envKey name => rw [getMapConfigFunction_envKey]
  | transform name fn => rw [getMapConfigFunction_transform]
  | insertVal v => rw [getMapConfigFunction_insertVal]
  | node es => rw [getMapConfigFunction_node]
  | secretVal inner =>
      cases inner with
      | envKey name => rw [getMapConfigFunction_secret_envKey]
      | transform name fn => rw [getMapConfigFunction_secret_transform]
      | insertVal v => rw [getMapConfigFunction_secret_insertVal]
      | node es => rw [getMapConfigFunction_secret_node]
      | secretVal x => rw [getMapConfigFunction_secret_secret]

/-! ### Flattening the reduce of `recursiveVerify` -/

theorem foldl_reduceConf_errors (l : List EntryResult) (acc : VerifyAcc) :
    (l.foldl reduceConf acc).errors = acc.errors ++ (l.map (fun r => r.2.1)).flatten := by
  induction l generalizing acc with
  | nil => simp
  | cons r rest ih => simp [ih, reduceConf, List.append_assoc]

theorem foldl_reduceConf_secrets (l : List EntryResult) (acc : VerifyAcc) :
    (l.foldl reduceConf acc).secrets = acc.secrets ++ (l.map (fun r => r.2.2)).flatten := by
  induction l generalizing acc with
  | nil => simp
  | cons r rest ih => simp [ih, reduceConf, List.append_assoc]

/-- Errors of a resolution are the per-key errors, concatenated in schema
key order. -/
theorem recursiveVerify_errors (env : Env) (path : String)
    (entries : List (String × ConfigNode)) :
    (recursiveVerify env path entries).errors =
      (entries.map (fun e => (getMapConfigFunction env path e.1 e.2).2.1)).flatten := by
  rw [recursiveVerify, foldl_reduceConf_errors, recursiveVerifyList_eq_map, List.map_map]
  rfl

/-- Secret paths of a resolution are the per-key secret paths, concatenated
in schema key order. -/
theorem recursiveVerify_secrets (env : Env) (path : String)
    (entries : List (String × ConfigNode)) :
    (recursiveVerify env path entries).secrets =
      (entries.map (fun e => (getMapConfigFunction env path e.1 e.2).2.2)).flatten := by
  rw [recursiveVerify, foldl_reduceConf_secrets, recursiveVerifyList_eq_map, List.map_map]
  rfl

/-- Merging a single fresh-keyed fragment appends it. -/
theorem spreadMerge_singleton_fresh (a : List (String × Value)) (k : String) (v : Value)
    (h : ∀ e ∈ a, e.1 ≠ k) :
    spreadMerge a [(k, v)] = a ++ [(k, v)] := by
  unfold spreadMerge
  have h1 : a.map (fun e => (([(k, v)].lookup e.1).getD e.2)) = a.map Prod.snd := by
    apply List.map_congr_left
    intro e he
    have hk : (e.1 == k) = false := by simpa using h e he
    simp [List.lookup, hk]
  have h2 : ([(k, v)].filter (fun e => !(a.map Prod.fst).contains e.1)) = [(k, v)] := by
    have hmem : k ∉ a.map Prod.fst := by
      simp only [List.mem_map]
      rintro ⟨e, he, rfl⟩
      exact h e he rfl
    simp [List.filter, hmem]
  rw [h2]
  congr 1
  calc a.map (fun e => (e.1, ([(k, v)].lookup e.1).getD e.2))
      = a.map (fun e => (e.1, e.2)) := by
        apply List.map_congr_left
        intro e he
        have hk : (e.1 == k) = false := by simpa using h e he
        simp [List.lookup, hk]
    _ = a := by simp

/-- Folding `reduceConf` over fragments with fresh, pairwise distinct keys
appends each single-key fragment in order. -/
theorem foldl_reduceConf_config (l : List EntryResult) (acc : VerifyAcc)
    (h : ∀ r ∈ l, ∀ e ∈ acc.config, e.1 ≠ r.1.1)
    (h2 : (l.map (fun r => r.1.1)).Nodup) :
    (l.foldl reduceConf acc).config = acc.config ++ l.map (fun r => r.1) := by
  induction l generalizing acc with
  | nil => simp
  | cons r rest ih =>
      simp only [List.foldl_cons]
      have hconf : (reduceConf acc r).config = acc.config ++ [r.1] := by
        simp only [reduceConf]
        exact spreadMerge_singleton_fresh acc.config r.1.1 r.1.2
          (fun e he => h r (by simp) e he)
      simp only [List.map_cons, List.nodup_cons] at h2
      rw [ih (reduceConf acc r)]
      · rw [hconf, List.map_cons, List.append_assoc, List.singleton_append]
      · intro r' hr' e he
        rw [hconf] at he
        rcases List.mem_append.mp he with hin | hin
        · exact h r' (by simp [hr']) e hin
        · rcases List.mem_singleton.mp hin with rfl
          intro hkey
          exact h2.1 (hkey ▸ List.mem_map_of_mem (fun r => r.1.1) hr')
      · exact h2.2

/-- With unique schema keys at the current level, the resolved config is the
list of single-key fragments in schema order. -/
theorem recursiveVerify_config (env : Env) (path : String)
    (entries : List (String × ConfigNode)) (h : (entries.map Prod.fst).Nodup) :
    (recursiveVerify env path entries).config =
      entries.map (fun e => (getMapConfigFunction env path e.1 e.2).1) := by
  rw [recursiveVerify, recursiveVerifyList_eq_map]
  rw [foldl_reduceConf_config]
  · simp
  · intro r hr e he
    simp at he
  · rw [List.map_map]
    have heq : ((fun r : EntryResult => r.1.1) ∘ fun e : String × ConfigNode =>
        getMapConfigFunction env path e.1 e.2) = Prod.fst := by
      funext e
      exact getMapConfigFunction_key env path e.1 e.2
    rw [heq]
    exact h

/-- With unique schema keys, resolution preserves the key list exactly. -/
theorem recursiveVerify_keys (env : Env) (path : String)
    (entries : List (String × ConfigNode)) (h : (entries.map Prod.fst).Nodup) :
    (recursiveVerify env path entries).config.map Prod.fst = entries.map Prod.fst := by
  rw [recursiveVerify_config env path entries h, List.map_map]
  apply List.map_congr_left
  intro e _
  exact getMapConfigFunction_key env path e.1 e.2

/-! ### Environment lookups -/

/-- Missing in the sense of the source: the environment has no value for
the key, or has the empty string. -/
def envMissing (env : Env) (key : String) : Prop :=
  env key = none ∨ env key = some ""

theorem getEnvValueOrErrorCurried_missing (env : Env) (sp key : String)
    (h : envMissing env key) :
    getEnvValueOrErrorCurried env sp key = (none, [missingMsg key sp]) := by
  rcases h with h | h <;> simp [getEnvValueOrErrorCurried, h]

theorem getEnvValueOrErrorCurried_present (env : Env) (sp key s : String)
    (h : env key = some s) (hne : s ≠ "") :
    getEnvValueOrErrorCurried env sp key = (some s, []) := by
  have : s.length ≠ 0 := by
    intro h0
    exact hne (String.ext (List.length_eq_zero.mp h0))
  simp [getEnvValueOrErrorCurried, h, this]

/-! ### Concrete environments used by witnesses -/

/-- A witness environment with one non-empty binding. -/
def envW : Env := fun k => if k = "HOST" then some "h" else none

/-- The empty environment. -/
def envN : Env := fun _ => none

/-! ### Claim theorems -/

/-- C1: for every schema leaf that performs an environment lookup — a plain
string leaf or the env-key of a transform tuple — a missing or empty
environment value yields exactly one error whose message is exactly
`environment value <ENV_KEY> is missing from config object at <dotted.path>`
with the resolved value `undefined`, and a present non-empty value yields
zero errors for that leaf. -/
theorem C1_env_lookup_spec (env : Env) (path key name : String) :
    (envMissing env name →
      getMapConfigFunction env path key (ConfigNode.envKey name) =
        ((key, Value.undef), [missingMsg name (joinPath path key)], []) ∧
      ∀ fn, getMapConfigFunction env path key (ConfigNode.transform name fn) =
        ((key, Value.undef), [missingMsg name (joinPath path key)], [])) ∧
    (∀ s, env name = some s → s ≠ "" →
      getMapConfigFunction env path key (ConfigNode.envKey name) =
        ((key, Value.str s), [], []) ∧
      ∀ fn, getMapConfigFunction env path key (ConfigNode.transform name fn) =
        ((key, fn s), [], [])) := by
  constructor
  · intro h
    constructor
    · rw [getMapConfigFunction_envKey,
        getEnvValueOrErrorCurried_missing env (joinPath path key) name h]
    · intro fn
      rw [getMapConfigFunction_transform,
        getEnvValueOrErrorCurried_missing env (joinPath path key) name h]
  · intro s hs hne
    constructor
    · rw [getMapConfigFunction_envKey,
        getEnvValueOrErrorCurried_present env (joinPath path key) name s hs hne]
    · intro fn
      rw [getMapConfigFunction_transform,
        getEnvValueOrErrorCurried_present env (joinPath path key) name s hs hne]

theorem C1_witness :
    getMapConfigFunction envW "" "host" (ConfigNode.envKey "MISSING") =
      (("host", Value.undef), [missingMsg "MISSING" "host"], []) ∧
    getMapConfigFunction envW "" "host" (ConfigNode.envKey "HOST") =
      (("host", Value.str "h"), [], []) := by
  constructor
  · have h := ((C1_env_lookup_spec envW "" "host" "MISSING").1
      (Or.inl (by simp [envW]))).1
    simpa [joinPath] using h
  · have h := ((C1_env_lookup_spec envW "" "host" "HOST").2 "h"
      (by simp [envW]) (by decide)).1
    simpa [joinPath] using h

/-- C6: a transform leaf whose environment value is missing or empty emits
one error naming the env key, resolves to `undefined`, and never invokes its
transform function — the result is entirely independent of the function;
with a present non-empty raw value, the leaf resolves to the function
applied to that raw string. -/
theorem C6_transform_spec (env : Env) (path key name : String) (fn : String → Value) :
    (envMissing env name →
      getMapConfigFunction env path key (ConfigNode.transform name fn) =
        ((key, Value.undef), [missingMsg name (joinPath path key)], []) ∧
      ∀ gn, getMapConfigFunction env path key (ConfigNode.transform name fn) =
        getMapConfigFunction env path key (ConfigNode.transform name gn)) ∧
    (∀ s, env name = some s → s ≠ "" →
      getMapConfigFunction env path key (ConfigNode.transform name fn) =
        ((key, fn s), [], [])) := by
  constructor
  · intro h
    have hmiss : ∀ g : String → Value,
        getMapConfigFunction env path key (ConfigNode.transform name g) =
          ((key, Value.undef), [missingMsg name (joinPath path key)], []) := by
      intro g
      rw [getMapConfigFunction_transform,
        getEnvValueOrErrorCurried_missing env (joinPath path key) name h]
    exact ⟨hmiss fn, fun gn => (hmiss fn).trans (hmiss gn).symm⟩
  · intro s hs hne
    rw [getMapConfigFunction_transform,
      getEnvValueOrErrorCurried_present env (joinPath path key) name s hs hne]

theorem C6_witness :
    getMapConfigFunction envN "" "port" (ConfigNode.transform "PORT"
        (fun s => Value.lit s.length)) =
      (("port", Value.undef), [missingMsg "PORT" "port"], []) ∧
    getMapConfigFunction envW "" "port" (ConfigNode.transform "HOST"
        (fun s => Value.lit s.length)) =
      (("port", Value.lit 1), [], []) := by
  constructor
  · have h := ((C6_transform_spec envN "" "port" "PORT"
      (fun s => Value.lit s.length)).1 (Or.inl rfl)).1
    simpa [joinPath] using h
  · have h := (C6_transform_spec envW "" "port" "HOST"
      (fun s => Value.lit s.length)).2 "h" (by simp [envW]) (by decide)
    simpa [joinPath] using h

/-- C10: a key bound to `secret(insert(v))` resolves to the literal `v` for
every environment (so no environment lookup can influence it), emits no
error, and records the key's dotted path as a secret path — even though the
spec's `SecretLeaf` variant does not allow an insert wrapper as payload. -/
theorem C10_secret_insert_spec (env : Env) (path key : String) (v : Value) :
    getMapConfigFunction env path key (secret (insert v)) =
      ((key, v), [], [joinPath path key]) := by
  rw [secret, insert, getMapConfigFunction_secret_insertVal]

/-- C5: `strictVerify` fails exactly when `verify` reports a non-empty error
list; the failure message is exactly `Missing configuration values: `
followed by the newline-joined individual messages of the completed
resolution, and on an error-free resolution the fully resolved config is
returned. -/
theorem C5_strictVerify_spec (cfg : List (String × ConfigNode)) (env : Env) :
    ((verify cfg env).errors = [] →
      strictVerify cfg env = Except.ok (verify cfg env).config) ∧
    ((verify cfg env).errors ≠ [] →
      strictVerify cfg env = Except.error
        ("Missing configuration values: " ++
          String.intercalate "\n" (verify cfg env).errors)) ∧
    (∀ m, strictVerify cfg env = Except.error m →
      (verify cfg env).errors ≠ [] ∧
      m = "Missing configuration values: " ++
        String.intercalate "\n" (verify cfg env).errors) := by
  by_cases h : (verify cfg env).errors = []
  · have hs : strictVerify cfg env = Except.ok (verify cfg env).config := by
      simp [strictVerify, h]
    refine ⟨fun _ => hs, fun hne => absurd h hne, ?_⟩
    intro m hm
    rw [hs] at hm
    cases hm
  · have hpos : (verify cfg env).errors.length > 0 := List.length_pos.mpr h
    have hs : strictVerify cfg env = Except.error
        ("Missing configuration values: " ++
          String.intercalate "\n" (verify cfg env).errors) := by
      simp [strictVerify, hpos]
    refine ⟨fun he => absurd he h, fun _ => hs, ?_⟩
    intro m hm
    rw [hs] at hm
    cases hm
    exact ⟨h, rfl⟩

theorem C5_witness :
    (verify [("baseUrl", ConfigNode.envKey "BASE_URL")] envN).errors =
      [missingMsg "BASE_URL" "baseUrl"] ∧
    strictVerify [("baseUrl", ConfigNode.envKey "BASE_URL")] envN =
      Except.error ("Missing configuration values: " ++
        String.intercalate "\n"
          (verify [("baseUrl", ConfigNode.envKey "BASE_URL")] envN).errors) := by
  have herr : (verify [("baseUrl", ConfigNode.envKey "BASE_URL")] envN).errors =
      [missingMsg "BASE_URL" "baseUrl"] := by
    have h0 : (verify [("baseUrl", ConfigNode.envKey "BASE_URL")] envN).errors =
        (recursiveVerify envN "" [("baseUrl", ConfigNode.envKey "BASE_URL")]).errors := rfl
    rw [h0, recursiveVerify_errors]
    simp [getMapConfigFunction_envKey, getEnvValueOrErrorCurried, envN, joinPath]
  refine ⟨herr, ?_⟩
  exact (C5_strictVerify_spec [("baseUrl", ConfigNode.envKey "BASE_URL")] envN).2.1
    (by rw [herr]; simp)

/-- C4: resolution is a total function of its inputs (never raises), all
failures surface as error-list entries, an error at one leaf does not
prevent sibling or descendant keys from resolving (with unique keys the
config has exactly one entry per schema key regardless of errors), and the
errors and secret paths are flat lists over the whole subtree: each level
concatenates the per-key lists in schema key order, and a nested object
contributes its recursively computed depth-first lists. -/
theorem C4_error_policy_spec (env : Env) (path : String)
    (entries : List (String × ConfigNode)) :
    (recursiveVerify env path entries).errors =
      (entries.map (fun e => (getMapConfigFunction env path e.1 e.2).2.1)).flatten ∧
    (recursiveVerify env path entries).secrets =
      (entries.map (fun e => (getMapConfigFunction env path e.1 e.2).2.2)).flatten ∧
    (∀ key es, (getMapConfigFunction env path key (ConfigNode.node es)).2.1 =
      (recursiveVerify env (joinPath path key) es).errors ∧
      (getMapConfigFunction env path key (ConfigNode.node es)).2.2 =
      (recursiveVerify env (joinPath path key) es).secrets) ∧
    ((entries.map Prod.fst).Nodup →
      (recursiveVerify env path entries).config =
        entries.map (fun e => (getMapConfigFunction env path e.1 e.2).1)) := by
  refine ⟨recursiveVerify_errors env path entries,
    recursiveVerify_secrets env path entries, ?_, recursiveVerify_config env path entries⟩
  intro key es
  rw [getMapConfigFunction_node]
  exact ⟨rfl, rfl⟩

theorem C4_witness :
    (([("a", ConfigNode.envKey "MISSING"), ("b", ConfigNode.envKey "HOST")].map
        Prod.fst).Nodup) ∧
    (recursiveVerify envW ""
        [("a", ConfigNode.envKey "MISSING"), ("b", ConfigNode.envKey "HOST")]).config =
      [("a", ConfigNode.envKey "MISSING"), ("b", ConfigNode.envKey "HOST")].map
        (fun e => (getMapConfigFunction envW "" e.1 e.2).1) := by
  refine ⟨by simp, ?_⟩
  exact (C4_error_policy_spec envW "" _).2.2.2 (by simp)

/-! ### Shape preservation (C2) -/

/-- The entry list the resolver will traverse below a schema node, when the
node resolves as an object: a plain nested object, a secret-wrapped nested
object, or a doubly wrapped secret (traversed as `{secret: inner}`). -/
def childEntries : ConfigNode → Option (List (String × ConfigNode))
  | .node es => some es
  | .secretVal (.node es) => some es
  | .secretVal (.secretVal x) => some [("secret", x)]
  | _ => none

/-- A member entry weighs less than its list. -/
theorem wEntries_mem {entries : List (String × ConfigNode)}
    {e : String × ConfigNode} (h : e ∈ entries) :
    ConfigNode.w e.2 < wEntries entries := by
  induction entries with
  | nil => cases h
  | cons f rest ih =>
      rcases List.mem_cons.mp h with rfl | h
      · simp [wEntries]; omega
      · have := ih h
        simp [wEntries]
        omega

/-- A node's child entries weigh less than the node. -/
theorem childEntries_w {c : ConfigNode} {cs : List (String × ConfigNode)}
    (h : childEntries c = some cs) : wEntries cs < ConfigNode.w c := by
  cases c with
  | envKey name => simp [childEntries] at h
  | transform name fn => simp [childEntries] at h
  | insertVal v => simp [childEntries] at h
  | node es =>
      simp [childEntries] at h
      subst h
      simp [ConfigNode.w]
  | secretVal inner =>
      cases inner with
      | envKey name => simp [childEntries] at h
      | transform name fn => simp [childEntries] at h
      | insertVal v => simp [childEntries] at h
      | node es =>
          simp [childEntries] at h
          subst h
          simp [ConfigNode.w]
          omega
      | secretVal x =>
          simp [childEntries] at h
          subst h
          simp [ConfigNode.w, wEntries]
          omega

/-- Executable key uniqueness. -/
def keysNodupB : List String → Bool
  | [] => true
  | k :: rest => !(rest.contains k) && keysNodupB rest

theorem keysNodupB_nodup : ∀ {l : List String}, keysNodupB l = true → l.Nodup := by
  intro l
  induction l with
  | nil => intro _; exact List.nodup_nil
  | cons k rest ih =>
      intro h
      rw [keysNodupB, Bool.and_eq_true] at h
      refine List.nodup_cons.mpr ⟨?_, ih h.2⟩
      have := h.1
      simpa using this

mutual

/-- Key uniqueness at every nesting level of a schema, including the levels
the resolver synthesizes for doubly wrapped secrets. -/
def nodupDeepB (entries : List (String × ConfigNode)) : Bool :=
  keysNodupB (entries.map Prod.fst) && nodupDeepChildren entries
termination_by (wEntries entries, 1)
decreasing_by
  · apply Prod.Lex.right
    omega

/-- Key uniqueness below each entry of a list. -/
def nodupDeepChildren : List (String × ConfigNode) → Bool
  | [] => true
  | e :: rest =>
      (match h : childEntries e.2 with
       | none => true
       | some cs => nodupDeepB cs) && nodupDeepChildren rest
termination_by l => (wEntries l, 0)
decreasing_by
  · apply Prod.Lex.left
    have := childEntries_w h
    simp [wEntries]
    omega
  · apply Prod.Lex.left
    simp [wEntries]

end

theorem nodupDeepB_parts {entries : List (String × ConfigNode)}
    (h : nodupDeepB entries = true) :
    keysNodupB (entries.map Prod.fst) = true ∧ nodupDeepChildren entries = true := by
  rw [nodupDeepB, Bool.and_eq_true] at h
  exact h

theorem nodupDeepChildren_spec :
    ∀ {l : List (String × ConfigNode)}, nodupDeepChildren l = true →
      ∀ e ∈ l, ∀ cs, childEntries e.2 = some cs → nodupDeepB cs = true := by
  intro l
  induction l with
  | nil => intro _ e he; cases he
  | cons f rest ih =>
      intro h e he cs hcs
      rw [nodupDeepChildren, Bool.and_eq_true] at h
      rcases List.mem_cons.mp he with rfl | he
      · have h1 := h.1
        rw [hcs] at h1
        exact h1
      · exact ih h.2 e he cs hcs

/-- The resolved config mirrors the schema: same keys in the same positions
at every nesting depth, with object-resolving schema nodes matched by
object values recursively. -/
inductive ShapeMatch : List (String × ConfigNode) → List (String × Value) → Prop where
  | nil : ShapeMatch [] []
  | leaf (k : String) (c : ConfigNode) (v : Value) (rest : List (String × ConfigNode))
      (out : List (String × Value)) (h : childEntries c = none)
      (hr : ShapeMatch rest out) : ShapeMatch ((k, c) :: rest) ((k, v) :: out)
  | object (k : String) (c : ConfigNode) (es : List (String × ConfigNode))
      (sub : List (String × Value)) (rest : List (String × ConfigNode))
      (out : List (String × Value)) (h : childEntries c = some es)
      (hs : ShapeMatch es sub) (hr : ShapeMatch rest out) :
      ShapeMatch ((k, c) :: rest) ((k, Value.obj sub) :: out)

/-- Build a `ShapeMatch` against the per-key fragments, given recursive
matches for all object children. -/
theorem shape_build (env : Env) (path : String) :
    ∀ entries : List (String × ConfigNode),
      (∀ e ∈ entries, ∀ cs, childEntries e.2 = some cs →
        ShapeMatch cs (recursiveVerify env (joinPath path e.1) cs).config) →
      ShapeMatch entries
        (entries.map (fun e => (getMapConfigFunction env path e.1 e.2).1)) := by
  intro entries
  induction entries with
  | nil => intro _; exact ShapeMatch.nil
  | cons e rest ih =>
      intro h
      obtain ⟨k, c⟩ := e
      have hrest := ih (fun e he cs hcs => h e (List.mem_cons_of_mem _ he) cs hcs)
      rw [List.map_cons]
      match hce : childEntries c with
      | none =>
          have hfst : (getMapConfigFunction env path k c).1 =
              (k, (getMapConfigFunction env path k c).1.2) := by
            refine Prod.ext_iff.mpr ⟨?_, rfl⟩
            exact getMapConfigFunction_key env path k c
          rw [hfst]
          exact ShapeMatch.leaf k c _ rest _ hce hrest
      | some cs =>
          have hval : (getMapConfigFunction env path k c).1 =
              (k, Value.obj (recursiveVerify env (joinPath path k) cs).config) := by
            cases c with
            | node es =>
                have hes : es = cs := by simpa [childEntries] using hce
                subst hes
                rw [getMapConfigFunction_node]
            | secretVal inner =>
                cases inner with
                | node es =>
                    have hes : es = cs := by simpa [childEntries] using hce
                    subst hes
                    rw [getMapConfigFunction_secret_node]
                | secretVal x =>
                    have hx : [("secret", x)] = cs := by simpa [childEntries] using hce
                    subst hx
                    rw [getMapConfigFunction_secret_secret]
                | envKey name => simp [childEntries] at hce
                | transform name fn => simp [childEntries] at hce
                | insertVal v => simp [childEntries] at hce
            | envKey name => simp [childEntries] at hce
            | transform name fn => simp [childEntries] at hce
            | insertVal v => simp [childEntries] at hce
          rw [hval]
          exact ShapeMatch.object k c cs _ rest _ hce
            (h (k, c) (List.mem_cons_self _ _) cs hce) hrest

/-- C2: for every schema with unique keys at every depth and every
environment, the resolved config has exactly the schema's key list at every
nesting depth — each schema key produces exactly one key at the same
position, even when its environment lookup failed. -/
theorem C2_shape_spec (env : Env) (path : String)
    (entries : List (String × ConfigNode)) (h : nodupDeepB entries = true) :
    ShapeMatch entries (recursiveVerify env path entries).config := by
  suffices H : ∀ (n : Nat) (env : Env) (path : String)
      (entries : List (String × ConfigNode)), wEntries entries ≤ n →
      nodupDeepB entries = true →
      ShapeMatch entries (recursiveVerify env path entries).config by
    exact H (wEntries entries) env path entries le_rfl h
  intro n
  induction n with
  | zero =>
      intro env path entries hw _
      cases entries with
      | nil =>
          have hconf : recursiveVerify env path [] = ⟨[], [], []⟩ := by
            rw [recursiveVerify, recursiveVerifyList_nil]
            rfl
          rw [hconf]
          exact ShapeMatch.nil
      | cons e rest =>
          exfalso
          simp [wEntries] at hw
  | succ n ih =>
      intro env path entries hw h
      have hparts := nodupDeepB_parts h
      have hkeys : (entries.map Prod.fst).Nodup := keysNodupB_nodup hparts.1
      rw [recursiveVerify_config env path entries hkeys]
      apply shape_build
      intro e he cs hcs
      have hcsb : nodupDeepB cs = true :=
        nodupDeepChildren_spec hparts.2 e he cs hcs
      have hcw : wEntries cs ≤ n := by
        have h1 := wEntries_mem he
        have h2 := childEntries_w hcs
        omega
      exact ih env (joinPath path e.1) cs hcw hcsb

theorem C2_witness :
    nodupDeepB [("db", ConfigNode.node [("name", ConfigNode.envKey "DB_NAME")]),
        ("url", ConfigNode.envKey "BASE_URL")] = true ∧
    ShapeMatch [("db", ConfigNode.node [("name", ConfigNode.envKey "DB_NAME")]),
        ("url", ConfigNode.envKey "BASE_URL")]
      (recursiveVerify envN ""
        [("db", ConfigNode.node [("name", ConfigNode.envKey "DB_NAME")]),
          ("url", ConfigNode.envKey "BASE_URL")]).config := by
  have hb : nodupDeepB [("db", ConfigNode.node [("name", ConfigNode.envKey "DB_NAME")]),
      ("url", ConfigNode.envKey "BASE_URL")] = true := by
    simp [nodupDeepB, nodupDeepChildren, keysNodupB, childEntries]
  exact ⟨hb, C2_shape_spec envN "" _ hb⟩

/-! ### Dotted paths as segment lists -/

theorem string_data_append (a b : String) : (a ++ b).data = a.data ++ b.data := by
  cases a
  cases b
  rfl

theorem string_append_assoc (a b c : String) : a ++ b ++ c = a ++ (b ++ c) := by
  apply String.ext
  simp [string_data_append]

theorem string_eq_empty_of_length (s : String) (h : s.length = 0) : s = "" :=
  String.ext (List.length_eq_zero.mp h)

theorem dot_append_ne_empty (p k : String) : p ++ "." ++ k ≠ "" := by
  intro h
  have hd := congrArg String.data h
  simp [string_data_append] at hd

theorem joinPath_empty_path (k : String) : joinPath "" k = k := by
  simp [joinPath]

theorem joinPath_ne_empty_path (p k : String) (h : p ≠ "") :
    joinPath p k = p ++ "." ++ k := by
  have hl : p.length ≠ 0 := fun h0 => h (string_eq_empty_of_length p h0)
  simp [joinPath, hl]

/-- Split a character list at every dot. -/
def segsAux : List Char → List (List Char)
  | [] => [[]]
  | c :: cs =>
      if c = '.' then [] :: segsAux cs
      else
        match segsAux cs with
        | [] => [[c]]
        | h :: t => (c :: h) :: t

theorem segsAux_ne_nil : ∀ l : List Char, segsAux l ≠ [] := by
  intro l
  induction l with
  | nil => simp [segsAux]
  | cons c cs ih =>
      rw [segsAux]
      by_cases hc : c = '.'
      · simp [hc]
      · simp only [if_neg hc]
        match h : segsAux cs with
        | [] => exact absurd h ih
        | h1 :: t => simp

theorem segsAux_no_dot : ∀ l : List Char, '.' ∉ l → segsAux l = [l] := by
  intro l
  induction l with
  | nil => intro _; rfl
  | cons c cs ih =>
      intro h
      have hc : c ≠ '.' := fun hc => h (hc ▸ List.mem_cons_self c cs)
      have hcs : '.' ∉ cs := fun hm => h (List.mem_cons_of_mem c hm)
      rw [segsAux, if_neg hc, ih hcs]

theorem segsAux_append_dot :
    ∀ (k rest : List Char), '.' ∉ k →
      segsAux (k ++ '.' :: rest) = k :: segsAux rest := by
  intro k
  induction k with
  | nil =>
      intro rest _
      simp [segsAux]
  | cons c k ih =>
      intro rest h
      have hc : c ≠ '.' := fun hc => h (hc ▸ List.mem_cons_self c k)
      have hk : '.' ∉ k := fun hm => h (List.mem_cons_of_mem c hm)
      rw [List.cons_append, segsAux, if_neg hc, ih rest hk]

/-- The segments of a dotted path string. -/
def dottedSegs (s : String) : List String := (segsAux s.data).map String.mk

theorem dottedSegs_ne_nil (s : String) : dottedSegs s ≠ [] := by
  intro h
  rw [dottedSegs] at h
  exact segsAux_ne_nil s.data (List.map_eq_nil.mp h)

theorem containsDot_false_not_mem {s : String} (h : containsDot s = false) :
    '.' ∉ s.data := by
  simpa [containsDot] using h

theorem dottedSegs_no_dot (s : String) (h : containsDot s = false) :
    dottedSegs s = [s] := by
  rw [dottedSegs, segsAux_no_dot s.data (containsDot_false_not_mem h)]
  cases s
  rfl

theorem dottedSegs_append (p s : String) (h : containsDot p = false) :
    dottedSegs (p ++ "." ++ s) = p :: dottedSegs s := by
  have hdata : (p ++ "." ++ s).data = p.data ++ '.' :: s.data := by
    simp [string_data_append]
  rw [dottedSegs, hdata, segsAux_append_dot p.data s.data (containsDot_false_not_mem h),
    List.map_cons]
  cases p
  rfl

/-- Walk a resolved config along path segments: one segment looks up a key
at the current level, more segments require an object value to recurse
into. -/
def valueAtSegs : List (String × Value) → List String → Option Value
  | _, [] => none
  | cfg, [k] => cfg.lookup k
  | cfg, k :: rest =>
      match cfg.lookup k with
      | some (Value.obj sub) => valueAtSegs sub rest
      | _ => none

theorem valueAtSegs_single (cfg : List (String × Value)) (k : String) :
    valueAtSegs cfg [k] = cfg.lookup k := by
  rfl

theorem valueAtSegs_cons (cfg : List (String × Value)) (k : String)
    (rest : List String) (h : rest ≠ []) :
    valueAtSegs cfg (k :: rest) =
      match cfg.lookup k with
      | some (Value.obj sub) => valueAtSegs sub rest
      | _ => none := by
  match rest with
  | [] => exact absurd rfl h
  | r :: t => rfl

/-! ### Key well-formedness: non-empty, dot-free keys -/

/-- A key suitable for dotted-path addressing: non-empty and dot-free. -/
def keyOkB (k : String) : Bool := !(k == "") && !(containsDot k)

mutual

/-- All keys at all nesting levels of a schema are non-empty and dot-free. -/
def pathOkDeepB (entries : List (String × ConfigNode)) : Bool :=
  (entries.map Prod.fst).all keyOkB && pathOkChildren entries
termination_by (wEntries entries, 1)
decreasing_by
  · apply Prod.Lex.right
    omega

/-- Key well-formedness below each entry of a list. -/
def pathOkChildren : List (String × ConfigNode) → Bool
  | [] => true
  | e :: rest =>
      (match h : childEntries e.2 with
       | none => true
       | some cs => pathOkDeepB cs) && pathOkChildren rest
termination_by l => (wEntries l, 0)
decreasing_by
  · apply Prod.Lex.left
    have := childEntries_w h
    simp [wEntries]
    omega
  · apply Prod.Lex.left
    simp [wEntries]

end

theorem pathOkDeepB_parts {entries : List (String × ConfigNode)}
    (h : pathOkDeepB entries = true) :
    (entries.map Prod.fst).all keyOkB = true ∧ pathOkChildren entries = true := by
  rw [pathOkDeepB, Bool.and_eq_true] at h
  exact h

theorem pathOkChildren_spec :
    ∀ {l : List (String × ConfigNode)}, pathOkChildren l = true →
      ∀ e ∈ l, ∀ cs, childEntries e.2 = some cs → pathOkDeepB cs = true := by
  intro l
  induction l with
  | nil => intro _ e he; cases he
  | cons f rest ih =>
      intro h e he cs hcs
      rw [pathOkChildren, Bool.and_eq_true] at h
      rcases List.mem_cons.mp he with rfl | he
      · have h1 := h.1
        rw [hcs] at h1
        exact h1
      · exact ih h.2 e he cs hcs

theorem keyOkB_ne_empty {k : String} (h : keyOkB k = true) : k ≠ "" := by
  rw [keyOkB, Bool.and_eq_true] at h
  simpa using h.1

theorem keyOkB_no_dot {k : String} (h : keyOkB k = true) : containsDot k = false := by
  rw [keyOkB, Bool.and_eq_true] at h
  simpa using h.2

/-! ### Path independence of the resolved values -/

/-- The looked-up value does not depend on the sub-path (only the error
message does). -/
theorem getEnvValueOrErrorCurried_fst (env : Env) (sp sp' key : String) :
    (getEnvValueOrErrorCurried env sp key).1 = (getEnvValueOrErrorCurried env sp' key).1 := by
  cases h : env key with
  | none => simp [getEnvValueOrErrorCurried, h]
  | some v =>
      by_cases hv : v.length = 0 <;> simp [getEnvValueOrErrorCurried, h, hv]

/-- The config component of the reduce depends only on the config fragments. -/
theorem foldl_config_congr :
    ∀ (l l' : List EntryResult), l.map (fun r => r.1) = l'.map (fun r => r.1) →
      ∀ (acc acc' : VerifyAcc), acc.config = acc'.config →
        (l.foldl reduceConf acc).config = (l'.foldl reduceConf acc').config := by
  intro l
  induction l with
  | nil =>
      intro l' hmap acc acc' hacc
      cases l' with
      | nil => exact hacc
      | cons r' rest' => simp at hmap
  | cons r rest ih =>
      intro l' hmap acc acc' hacc
      cases l' with
      | nil => simp at hmap
      | cons r' rest' =>
          simp only [List.map_cons, List.cons.injEq] at hmap
          simp only [List.foldl_cons]
          apply ih rest' hmap.2
          simp only [reduceConf, hacc, hmap.1]

/-- Resolved config fragments and configs do not depend on the root path:
the path only enters error messages and secret paths. -/
theorem config_path_indep (n : Nat) :
    (∀ c : ConfigNode, ConfigNode.w c ≤ n → ∀ (env : Env) (p q k : String),
      (getMapConfigFunction env p k c).1 = (getMapConfigFunction env q k c).1) ∧
    (∀ entries : List (String × ConfigNode), wEntries entries ≤ n →
      ∀ (env : Env) (p q : String),
        (recursiveVerify env p entries).config = (recursiveVerify env q entries).config) := by
  induction n using Nat.strong_induction_on with
  | _ n ih =>
    have hnode : ∀ es : List (String × ConfigNode), wEntries es < n →
        ∀ (env : Env) (p q : String),
          (recursiveVerify env p es).config = (recursiveVerify env q es).config := by
      intro es hes env p q
      exact (ih (wEntries es) hes).2 es le_rfl env p q
    have p1 : ∀ c : ConfigNode, ConfigNode.w c ≤ n → ∀ (env : Env) (p q k : String),
        (getMapConfigFunction env p k c).1 = (getMapConfigFunction env q k c).1 := by
      intro c hc env p q k
      cases c with
      | envKey name =>
          rw [getMapConfigFunction_envKey, getMapConfigFunction_envKey]
          rw [getEnvValueOrErrorCurried_fst env (joinPath p k) (joinPath q k) name]
      | transform name fn =>
          rw [getMapConfigFunction_transform, getMapConfigFunction_transform]
          rw [getEnvValueOrErrorCurried_fst env (joinPath p k) (joinPath q k) name]
      | insertVal v => rw [getMapConfigFunction_insertVal, getMapConfigFunction_insertVal]
      | node es =>
          rw [getMapConfigFunction_node, getMapConfigFunction_node]
          have hes : wEntries es < n := by
            simp [ConfigNode.w] at hc
            omega
          rw [hnode es hes env (joinPath p k) (joinPath q k)]
      | secretVal inner =>
          cases inner with
          | envKey name =>
              rw [getMapConfigFunction_secret_envKey, getMapConfigFunction_secret_envKey]
              rw [getEnvValueOrErrorCurried_fst env (joinPath p k) (joinPath q k) name]
          | transform name fn =>
              rw [getMapConfigFunction_secret_transform,
                getMapConfigFunction_secret_transform]
              rw [getEnvValueOrErrorCurried_fst env (joinPath p k) (joinPath q k) name]
          | insertVal v =>
              rw [getMapConfigFunction_secret_insertVal,
                getMapConfigFunction_secret_insertVal]
          | node es =>
              rw [getMapConfigFunction_secret_node, getMapConfigFunction_secret_node]
              have hes : wEntries es < n := by
                simp [ConfigNode.w] at hc
                omega
              rw [hnode es hes env (joinPath p k) (joinPath q k)]
          | secretVal x =>
              rw [getMapConfigFunction_secret_secret, getMapConfigFunction_secret_secret]
              have hes : wEntries [("secret", x)] < n := by
                simp [ConfigNode.w, wEntries] at hc ⊢
                omega
              rw [hnode [("secret", x)] hes env (joinPath p k) (joinPath q k)]
    refine ⟨p1, ?_⟩
    intro entries hw env p q
    rw [recursiveVerify, recursiveVerify, recursiveVerifyList_eq_map,
      recursiveVerifyList_eq_map]
    apply foldl_config_congr _ _ _ _ _ rfl
    rw [List.map_map, List.map_map]
    apply List.map_congr_left
    intro e he
    have hwe : ConfigNode.w e.2 ≤ n := le_of_lt (lt_of_lt_of_le (wEntries_mem he) hw)
    exact p1 e.2 hwe env p q e.1

/-- Looking a schema key up in the resolved config finds that key's
fragment value (unique keys). -/
theorem lookup_map_frag (env : Env) (path : String) :
    ∀ (entries : List (String × ConfigNode)) (k : String) (c : ConfigNode),
      (entries.map Prod.fst).Nodup → (k, c) ∈ entries →
      (entries.map (fun e => (getMapConfigFunction env path e.1 e.2).1)).lookup k =
        some (getMapConfigFunction env path k c).1.2 := by
  intro entries
  induction entries with
  | nil => intro k c _ hmem; cases hmem
  | cons e rest ih =>
      intro k c hnd hmem
      simp only [List.map_cons, List.nodup_cons] at hnd
      rcases List.mem_cons.mp hmem with heq | hmem
      · cases heq
        rw [List.map_cons, List.lookup]
        have hkey : (getMapConfigFunction env path k c).1.1 = k :=
          getMapConfigFunction_key env path k c
        rw [hkey]
        simp
      · have hk : k ≠ e.1 := by
          intro hk
          apply hnd.1
          subst hk
          exact List.mem_map.mpr ⟨(e.1, c), hmem, rfl⟩
        rw [List.map_cons, List.lookup, getMapConfigFunction_key env path e.1 e.2]
        have hbeq : (k == e.1) = false := by simpa using hk
        rw [hbeq]
        exact ih k c hnd.2 hmem

/-- Resolving under a non-empty root path relocates every secret path by
prefixing `path + "."`. -/
theorem secrets_reloc (n : Nat) :
    ∀ entries : List (String × ConfigNode), wEntries entries ≤ n →
      pathOkDeepB entries = true →
      ∀ (env : Env) (p : String), p ≠ "" →
        (recursiveVerify env p entries).secrets =
          ((recursiveVerify env "" entries).secrets).map (fun s => p ++ "." ++ s) := by
  induction n using Nat.strong_induction_on with
  | _ n ih =>
    intro entries hw hok env p hp
    rw [recursiveVerify_secrets, recursiveVerify_secrets, List.map_flatten,
      List.map_map]
    congr 1
    apply List.map_congr_left
    intro e he
    show (getMapConfigFunction env p e.1 e.2).2.2 =
      ((getMapConfigFunction env "" e.1 e.2).2.2).map (fun s => p ++ "." ++ s)
    obtain ⟨hkeys, hchildren⟩ := pathOkDeepB_parts hok
    have hkeyok : keyOkB e.1 = true := by
      have := List.all_eq_true.mp hkeys (e.1) (List.mem_map_of_mem Prod.fst he)
      exact this
    have hkne : e.1 ≠ "" := keyOkB_ne_empty hkeyok
    have hjoin : joinPath p e.1 = p ++ "." ++ e.1 := joinPath_ne_empty_path p e.1 hp
    have hjoin0 : joinPath "" e.1 = e.1 := joinPath_empty_path e.1
    have hchild : ∀ cs, childEntries e.2 = some cs →
        (recursiveVerify env (joinPath p e.1) cs).secrets =
          ((recursiveVerify env (joinPath "" e.1) cs).secrets).map
            (fun s => p ++ "." ++ s) := by
      intro cs hcs
      have hcsok : pathOkDeepB cs = true := pathOkChildren_spec hchildren e he cs hcs
      have hcsw : wEntries cs < n :=
        lt_of_lt_of_le (lt_trans (childEntries_w hcs) (wEntries_mem he)) hw
      have h1 : (recursiveVerify env (joinPath p e.1) cs).secrets =
          ((recursiveVerify env "" cs).secrets).map
            (fun s => (p ++ "." ++ e.1) ++ "." ++ s) := by
        rw [hjoin]
        exact (ih (wEntries cs) hcsw) cs le_rfl hcsok env (p ++ "." ++ e.1)
          (dot_append_ne_empty p e.1)
      have h2 : (recursiveVerify env (joinPath "" e.1) cs).secrets =
          ((recursiveVerify env "" cs).secrets).map (fun s => e.1 ++ "." ++ s) := by
        rw [hjoin0]
        exact (ih (wEntries cs) hcsw) cs le_rfl hcsok env e.1 hkne
      rw [h1, h2, List.map_map]
      apply List.map_congr_left
      intro s _
      show (p ++ "." ++ e.1) ++ "." ++ s = p ++ "." ++ (e.1 ++ "." ++ s)
      apply String.ext
      simp [string_data_append]
    obtain ⟨k, c⟩ := e
    cases c with
    | envKey name =>
        rw [getMapConfigFunction_envKey, getMapConfigFunction_envKey]
        simp
    | transform name fn =>
        rw [getMapConfigFunction_transform, getMapConfigFunction_transform]
        simp
    | insertVal v =>
        rw [getMapConfigFunction_insertVal, getMapConfigFunction_insertVal]
        simp
    | node es =>
        rw [getMapConfigFunction_node, getMapConfigFunction_node]
        exact hchild es rfl
    | secretVal inner =>
        cases inner with
        | envKey name =>
            rw [getMapConfigFunction_secret_envKey, getMapConfigFunction_secret_envKey]
            simp [hjoin, hjoin0]
        | transform name fn =>
            rw [getMapConfigFunction_secret_transform,
              getMapConfigFunction_secret_transform]
            simp [hjoin, hjoin0]
        | insertVal v =>
            rw [getMapConfigFunction_secret_insertVal,
              getMapConfigFunction_secret_insertVal]
            simp [hjoin, hjoin0]
        | node es =>
            rw [getMapConfigFunction_secret_node, getMapConfigFunction_secret_node]
            exact hchild es rfl
        | secretVal x =>
            rw [getMapConfigFunction_secret_secret, getMapConfigFunction_secret_secret]
            exact hchild [("secret", x)] rfl

/-- Every secret path recorded when resolving with root path `""` denotes an
actual position of the resolved config, for schemas with unique, non-empty,
dot-free keys. -/
theorem secret_paths_refer_aux (n : Nat) :
    ∀ entries : List (String × ConfigNode), wEntries entries ≤ n →
      nodupDeepB entries = true → pathOkDeepB entries = true →
      ∀ env : Env, ∀ s ∈ (recursiveVerify env "" entries).secrets,
        valueAtSegs (recursiveVerify env "" entries).config (dottedSegs s) ≠ none := by
  induction n using Nat.strong_induction_on with
  | _ n ih =>
    intro entries hw hnd hok env s hs
    rw [recursiveVerify_secrets] at hs
    rw [List.mem_flatten] at hs
    obtain ⟨l, hl, hsl⟩ := hs
    rw [List.mem_map] at hl
    obtain ⟨e, he, rfl⟩ := hl
    obtain ⟨hkeys, hchildren⟩ := nodupDeepB_parts hnd
    obtain ⟨hkok, hokchildren⟩ := pathOkDeepB_parts hok
    have hndk : (entries.map Prod.fst).Nodup := keysNodupB_nodup hkeys
    have hconfig := recursiveVerify_config env "" entries hndk
    have hkeyok : keyOkB e.1 = true :=
      List.all_eq_true.mp hkok e.1 (List.mem_map.mpr ⟨e, he, rfl⟩)
    obtain ⟨k, c⟩ := e
    have hsecretleaf : s = k →
        valueAtSegs (recursiveVerify env "" entries).config (dottedSegs s) ≠ none := by
      rintro rfl
      rw [dottedSegs_no_dot s (keyOkB_no_dot hkeyok), valueAtSegs_single, hconfig,
        lookup_map_frag env "" entries s c hndk he]
      simp
    have hnested : ∀ cs, childEntries c = some cs →
        s ∈ (recursiveVerify env k cs).secrets →
        valueAtSegs (recursiveVerify env "" entries).config (dottedSegs s) ≠ none := by
      intro cs hcs hs1
      have hcnd : nodupDeepB cs = true := nodupDeepChildren_spec hchildren (k, c) he cs hcs
      have hcok : pathOkDeepB cs = true := pathOkChildren_spec hokchildren (k, c) he cs hcs
      have hcw : wEntries cs < n :=
        lt_of_lt_of_le (lt_trans (childEntries_w hcs) (wEntries_mem he)) hw
      have hrel : (recursiveVerify env k cs).secrets =
          ((recursiveVerify env "" cs).secrets).map (fun t => k ++ "." ++ t) :=
        secrets_reloc (wEntries cs) cs le_rfl hcok env k (keyOkB_ne_empty hkeyok)
      rw [hrel, List.mem_map] at hs1
      obtain ⟨s0, hs0, rfl⟩ := hs1
      rw [dottedSegs_append k s0 (keyOkB_no_dot hkeyok)]
      rw [valueAtSegs_cons _ _ _ (dottedSegs_ne_nil s0), hconfig,
        lookup_map_frag env "" entries k c hndk he]
      have hval : (getMapConfigFunction env "" k c).1.2 =
          Value.obj (recursiveVerify env "" cs).config := by
        cases c with
        | envKey name => simp [childEntries] at hcs
        | transform name fn => simp [childEntries] at hcs
        | insertVal v => simp [childEntries] at hcs
        | node es =>
            have hes : es = cs := by simpa [childEntries] using hcs
            subst hes
            rw [getMapConfigFunction_node, joinPath_empty_path]
            rw [(config_path_indep (wEntries es)).2 es le_rfl env k ""]
        | secretVal inner =>
            cases inner with
            | envKey name => simp [childEntries] at hcs
            | transform name fn => simp [childEntries] at hcs
            | insertVal v => simp [childEntries] at hcs
            | node es =>
                have hes : es = cs := by simpa [childEntries] using hcs
                subst hes
                rw [getMapConfigFunction_secret_node, joinPath_empty_path]
                rw [(config_path_indep (wEntries es)).2 es le_rfl env k ""]
            | secretVal x =>
                have hx : [("secret", x)] = cs := by simpa [childEntries] using hcs
                subst hx
                rw [getMapConfigFunction_secret_secret, joinPath_empty_path]
                rw [(config_path_indep (wEntries [("secret", x)])).2 _ le_rfl env k ""]
      rw [hval]
      have hih := ih (wEntries cs) hcw cs le_rfl hcnd hcok env s0 hs0
      simpa using hih
    cases c with
    | envKey name =>
        rw [getMapConfigFunction_envKey] at hsl
        simp at hsl
    | transform name fn =>
        rw [getMapConfigFunction_transform] at hsl
        simp at hsl
    | insertVal v =>
        rw [getMapConfigFunction_insertVal] at hsl
        simp at hsl
    | node es =>
        rw [getMapConfigFunction_node, joinPath_empty_path] at hsl
        exact hnested es rfl hsl
    | secretVal inner =>
        cases inner with
        | envKey name =>
            rw [getMapConfigFunction_secret_envKey, joinPath_empty_path] at hsl
            simp at hsl
            exact hsecretleaf hsl
        | transform name fn =>
            rw [getMapConfigFunction_secret_transform, joinPath_empty_path] at hsl
            simp at hsl
            exact hsecretleaf hsl
        | insertVal v =>
            rw [getMapConfigFunction_secret_insertVal, joinPath_empty_path] at hsl
            simp at hsl
            exact hsecretleaf hsl
        | node es =>
            rw [getMapConfigFunction_secret_node, joinPath_empty_path] at hsl
            exact hnested es rfl hsl
        | secretVal x =>
            rw [getMapConfigFunction_secret_secret, joinPath_empty_path] at hsl
            exact hnested [("secret", x)] rfl hsl

/-- C9 counterexample: a `SecretLeaf` wrapping a nested object records no
secret path at all — resolving `{a: secret({b: "HOST"})}` yields an empty
secret-path list, not the object's own path `["a"]` that the claim
requires. -/
theorem C9_counterexample :
    (recursiveVerify envW ""
        [("a", secret (ConfigNode.node [("b", ConfigNode.envKey "HOST")]))]).secrets
      = [] ∧ ([] : List String) ≠ ["a"] := by
  constructor
  · rw [recursiveVerify_secrets]
    simp [secret, getMapConfigFunction_secret_node, recursiveVerify_secrets,
      getMapConfigFunction_envKey]
  · simp

/-- C9 amended: for schemas whose keys are unique, non-empty and dot-free at
every nesting level, every secret path the resolver records references an
actual position in the resolved config (a dot-free path a top-level key, a
dotted path a key nested in objects along its segments); however a
`SecretLeaf` wrapping a nested object records no secret path of its own —
only the paths recorded inside the wrapped object survive (the source drops
the unwrap-recorded path in its object branch). -/
theorem C9_secret_paths_amended (env : Env) (entries : List (String × ConfigNode))
    (h1 : nodupDeepB entries = true) (h2 : pathOkDeepB entries = true) :
    (∀ s ∈ (recursiveVerify env "" entries).secrets,
      valueAtSegs (recursiveVerify env "" entries).config (dottedSegs s) ≠ none) ∧
    (∀ (path key : String) (es : List (String × ConfigNode)),
      (getMapConfigFunction env path key (secret (ConfigNode.node es))).2.2 =
        (recursiveVerify env (joinPath path key) es).secrets) := by
  constructor
  · exact secret_paths_refer_aux (wEntries entries) entries le_rfl h1 h2 env
  · intro path key es
    rw [secret, getMapConfigFunction_secret_node]

theorem C9_witness :
    nodupDeepB [("db", ConfigNode.node
        [("password", secret (ConfigNode.envKey "HOST"))])] = true ∧
    pathOkDeepB [("db", ConfigNode.node
        [("password", secret (ConfigNode.envKey "HOST"))])] = true ∧
    (∀ s ∈ (recursiveVerify envW ""
        [("db", ConfigNode.node [("password", secret (ConfigNode.envKey "HOST"))])]).secrets,
      valueAtSegs (recursiveVerify envW ""
        [("db", ConfigNode.node
          [("password", secret (ConfigNode.envKey "HOST"))])]).config
        (dottedSegs s) ≠ none) := by
  have hnd : nodupDeepB [("db", ConfigNode.node
      [("password", secret (ConfigNode.envKey "HOST"))])] = true := by
    simp [nodupDeepB, nodupDeepChildren, keysNodupB, childEntries, secret]
  have hok : pathOkDeepB [("db", ConfigNode.node
      [("password", secret (ConfigNode.envKey "HOST"))])] = true := by
    simp [pathOkDeepB, pathOkChildren, keyOkB, containsDot, childEntries, secret]
  exact ⟨hnd, hok, (C9_secret_paths_amended envW _ hnd hok).1⟩

/-- A witness environment binding only `PW`. -/
def envPW : Env := fun k => if k = "PW" then some "pw" else none

/-- C7 (refuting the claim, exhibiting the code bug): `verify` installs the
sanitized `toString` on `builtConfig.__proto__`, i.e. on the shared global
`Object.prototype`.  A first call with a secret therefore mutates state that
outlives the call: a second call with a different, secret-free schema
returns a config whose inherited `toString` is still the first call's
capability, bound to the first call's secrets and resolved config — the
claimed isolation between calls fails. -/
theorem C7_shared_prototype_bug :
    (verifyS [("host", ConfigNode.envKey "HOST")] envW
        (verifyS [("password", secret (ConfigNode.envKey "PW"))] envPW ⟨none⟩).2).2.toStringSlot
      = some (["password"], [("password", Value.str "pw")]) ∧
    (verifyS [("password", secret (ConfigNode.envKey "PW"))] envPW ⟨none⟩).2 ≠ ⟨none⟩ := by
  have h1sec : (recursiveVerify envPW ""
      [("password", secret (ConfigNode.envKey "PW"))]).secrets = ["password"] := by
    rw [recursiveVerify_secrets]
    simp [secret, getMapConfigFunction_secret_envKey, joinPath_empty_path]
  have h1conf : (recursiveVerify envPW ""
      [("password", secret (ConfigNode.envKey "PW"))]).config =
      [("password", Value.str "pw")] := by
    rw [recursiveVerify_config _ _ _ (by simp)]
    simp only [List.map_cons, List.map_nil, secret, getMapConfigFunction_secret_envKey]
    rw [getEnvValueOrErrorCurried_present envPW _ "PW" "pw" (by simp [envPW]) (by decide)]
  have h2sec : (recursiveVerify envW "" [("host", ConfigNode.envKey "HOST")]).secrets
      = [] := by
    rw [recursiveVerify_secrets]
    simp [getMapConfigFunction_envKey]
  constructor
  · simp [verifyS, h1sec, h1conf, h2sec]
  · simp [verifyS, h1sec, h1conf]

/-! ### Association-list toolbox for the redactor -/

theorem lookup_eq_none_iff {α : Type} (l : List (String × α)) (q : String) :
    l.lookup q = none ↔ q ∉ l.map Prod.fst := by
  induction l with
  | nil => simp [List.lookup]
  | cons e rest ih =>
      by_cases hq : q = e.1
      · subst hq
        simp [List.lookup]
      · have hbeq : (q == e.1) = false := by simpa using hq
        simp [List.lookup, hbeq, ih, hq]

theorem lookup_some_exists {α : Type} {l : List (String × α)} {q : String} {v : α}
    (h : l.lookup q = some v) : (q, v) ∈ l := by
  induction l with
  | nil => simp [List.lookup] at h
  | cons e rest ih =>
      by_cases hq : q = e.1
      · subst hq
        simp [List.lookup] at h
        obtain ⟨a, b⟩ := e
        cases h
        exact List.mem_cons_self _ _
      · have hbeq : (q == e.1) = false := by simpa using hq
        simp [List.lookup, hbeq] at h
        exact List.mem_cons_of_mem _ (ih h)

theorem lookup_mem_keys {α : Type} {l : List (String × α)} {q : String} {v : α}
    (h : l.lookup q = some v) : q ∈ l.map Prod.fst :=
  List.mem_map.mpr ⟨(q, v), lookup_some_exists h, rfl⟩

/-- Looking up in a key-preserving map: the result is the image of the first
entry carrying that key. -/
theorem lookup_map_entry {α β : Type} (g : (String × α) → β) :
    ∀ (l : List (String × α)) (q : String) (v : α), l.lookup q = some v →
      ∃ e0, e0 ∈ l ∧ e0.1 = q ∧ e0.2 = v ∧
        (l.map (fun e => (e.1, g e))).lookup q = some (g e0) := by
  intro l
  induction l with
  | nil => intro q v h; simp [List.lookup] at h
  | cons e rest ih =>
      intro q v h
      by_cases hq : q = e.1
      · subst hq
        refine ⟨e, List.mem_cons_self _ _, rfl, ?_, ?_⟩
        · simp [List.lookup] at h
          obtain ⟨a, b⟩ := e
          cases h
          rfl
        · simp [List.lookup]
      · have hbeq : (q == e.1) = false := by simpa using hq
        simp only [List.lookup, hbeq] at h
        obtain ⟨e0, he0, hfst, hsnd, hlk⟩ := ih q v h
        exact ⟨e0, List.mem_cons_of_mem _ he0, hfst, hsnd, by
          simp only [List.map_cons, List.lookup, hbeq]
          exact hlk⟩

theorem lookup_map_none {α β : Type} (g : (String × α) → β)
    (l : List (String × α)) (q : String) (h : l.lookup q = none) :
    (l.map (fun e => (e.1, g e))).lookup q = none := by
  rw [lookup_eq_none_iff] at h ⊢
  intro hmem
  apply h
  rw [List.map_map] at hmem
  simpa using hmem

theorem map_fst_map_entry {α β : Type} (g : (String × α) → β) (l : List (String × α)) :
    (l.map (fun e => (e.1, g e))).map Prod.fst = l.map Prod.fst := by
  rw [List.map_map]
  rfl

/-- Looking up in a constant-valued key list. -/
theorem lookup_const_map (ks : List String) (v : Value) (q : String) :
    (ks.map (fun k => (k, v))).lookup q = if q ∈ ks then some v else none := by
  induction ks with
  | nil => simp [List.lookup]
  | cons k rest ih =>
      by_cases hq : q = k
      · subst hq
        simp [List.lookup]
      · have hbeq : (q == k) = false := by simpa using hq
        simp [List.lookup, hbeq, ih, hq]

/-- When every key of `b` occurs among `a`'s keys, the spread `{...a, ...b}`
is a pure pointwise override of `a`. -/
theorem spreadMerge_subset_eq (a b : List (String × Value))
    (h : ∀ e ∈ b, e.1 ∈ a.map Prod.fst) :
    spreadMerge a b = a.map (fun e => (e.1, (b.lookup e.1).getD e.2)) := by
  unfold spreadMerge
  have hfil : b.filter (fun e => !(a.map Prod.fst).contains e.1) = [] := by
    rw [List.filter_eq_nil]
    intro e he
    simp [h e he]
  rw [hfil, List.append_nil]

theorem spreadMerge_subset_keys (a b : List (String × Value))
    (h : ∀ e ∈ b, e.1 ∈ a.map Prod.fst) :
    (spreadMerge a b).map Prod.fst = a.map Prod.fst := by
  rw [spreadMerge_subset_eq a b h]
  exact map_fst_map_entry _ a

/-! ### Unfolding equations and characterizations for the redactor -/

theorem redactParentList_nil (config : List (String × Value)) :
    redactParentList config [] = some [] := by
  rw [redactParentList]

theorem redactParentList_cons_intro {config : List (String × Value)}
    {g : String × List String} {rest : List (String × List String)}
    {sub r : List (String × Value)} {rs : List (String × Value)}
    (h1 : config.lookup g.1 = some (Value.obj sub))
    (h2 : recursiveToString g.2 sub = some r)
    (h3 : redactParentList config rest = some rs) :
    redactParentList config (g :: rest) = some ((g.1, Value.obj r) :: rs) := by
  rw [redactParentList]
  split
  · rename_i sub' heq
    rw [h1] at heq
    injection heq with heq
    injection heq with heq
    subst heq
    rw [h2, h3]
  · rename_i s heq
    rw [h1] at heq
    cases heq
  · rename_i heq
    rw [h1] at heq
    cases heq
  · rename_i n heq
    rw [h1] at heq
    cases heq
  · rename_i heq
    rw [h1] at heq
    cases heq

theorem redactParentList_cons_elim {config : List (String × Value)}
    {g : String × List String} {rest : List (String × List String)}
    {ns : List (String × Value)}
    (h : redactParentList config (g :: rest) = some ns) :
    ∃ sub r rs, config.lookup g.1 = some (Value.obj sub) ∧
      recursiveToString g.2 sub = some r ∧
      redactParentList config rest = some rs ∧
      ns = (g.1, Value.obj r) :: rs := by
  rw [redactParentList] at h
  split at h
  · rename_i sub heq
    split at h
    · cases h
    · rename_i r hr
      split at h
      · cases h
      · rename_i rs hrs
        injection h with h
        exact ⟨sub, r, rs, heq, hr, hrs, h.symm⟩
  · cases h
  · cases h
  · cases h
  · cases h

theorem redactParentList_keys {config : List (String × Value)} :
    ∀ {l : List (String × List String)} {ns : List (String × Value)},
      redactParentList config l = some ns →
      ns.map Prod.fst = l.map Prod.fst ∧
      ∀ e ∈ l, ∃ sub, config.lookup e.1 = some (Value.obj sub) := by
  intro l
  induction l with
  | nil =>
      intro ns h
      rw [redactParentList_nil] at h
      cases h
      simp
  | cons g rest ih =>
      intro ns h
      obtain ⟨sub, r, rs, hlk, hr, hrs, rfl⟩ := redactParentList_cons_elim h
      obtain ⟨hkeys, hsub⟩ := ih hrs
      refine ⟨by simp [hkeys], ?_⟩
      intro e he
      rcases List.mem_cons.mp he with rfl | he
      · exact ⟨sub, hlk⟩
      · exact hsub e he

/-- With unique parents, each grouped parent's entry in the result of
`redactParentList` is found by lookup. -/
theorem redactParentList_lookup {config : List (String × Value)} :
    ∀ {l : List (String × List String)} {ns : List (String × Value)},
      redactParentList config l = some ns → (l.map Prod.fst).Nodup →
      ∀ p sufs, (p, sufs) ∈ l →
        ∃ sub r, config.lookup p = some (Value.obj sub) ∧
          recursiveToString sufs sub = some r ∧
          ns.lookup p = some (Value.obj r) := by
  intro l
  induction l with
  | nil => intro ns _ _ p sufs hmem; cases hmem
  | cons g rest ih =>
      intro ns h hnd p sufs hmem
      obtain ⟨sub, r, rs, hlk, hr, hrs, rfl⟩ := redactParentList_cons_elim h
      simp only [List.map_cons, List.nodup_cons] at hnd
      rcases List.mem_cons.mp hmem with heq | hmem
      · cases heq
        refine ⟨sub, r, hlk, hr, ?_⟩
        simp [List.lookup]
      · have hp : p ≠ g.1 := by
          intro hp
          apply hnd.1
          subst hp
          exact List.mem_map.mpr ⟨(g.1, sufs), hmem, rfl⟩
        obtain ⟨sub', r', hlk', hr', hns⟩ := ih hrs hnd.2 p sufs hmem
        refine ⟨sub', r', hlk', hr', ?_⟩
        have hbeq : (p == g.1) = false := by simpa using hp
        simp only [List.lookup, hbeq]
        exact hns

/-! ### The grouping reduce -/

/-- The `groupedNestedSecrets` object of `recursiveToString`: fold the parent/children
pairs with `groupStep` from the empty object. -/
def groupAll (pcs : List (String × String)) : List (String × List String) :=
  pcs.foldl groupStep []

theorem groupStep_keys (acc : List (String × List String)) (pc : String × String) :
    (groupStep acc pc).map Prod.fst =
      if (acc.map Prod.fst).contains pc.1 then acc.map Prod.fst
      else acc.map Prod.fst ++ [pc.1] := by
  by_cases h : ((acc.map Prod.fst).contains pc.1) = true
  · rw [groupStep, if_pos h, if_pos h, List.map_map]
    apply List.map_congr_left
    intro e _
    simp only [Function.comp]
    split <;> rfl
  · rw [groupStep, if_neg h, if_neg h]
    simp

theorem groupStep_keys_nodup (acc : List (String × List String)) (pc : String × String)
    (h : (acc.map Prod.fst).Nodup) : ((groupStep acc pc).map Prod.fst).Nodup := by
  rw [groupStep_keys]
  split
  · exact h
  · rename_i hc
    have hnm : pc.1 ∉ acc.map Prod.fst := fun hmem => hc (List.elem_iff.mpr hmem)
    simp [List.nodup_append, h, hnm]

theorem foldl_groupStep_nodup :
    ∀ (pcs : List (String × String)) (acc : List (String × List String)),
      (acc.map Prod.fst).Nodup → ((pcs.foldl groupStep acc).map Prod.fst).Nodup := by
  intro pcs
  induction pcs with
  | nil => intro acc h; exact h
  | cons pc rest ih =>
      intro acc h
      rw [List.foldl_cons]
      exact ih (groupStep acc pc) (groupStep_keys_nodup acc pc h)

theorem groupAll_keys_nodup (pcs : List (String × String)) :
    ((groupAll pcs).map Prod.fst).Nodup :=
  foldl_groupStep_nodup pcs [] (by simp)

theorem foldl_groupStep_keys_mem :
    ∀ (pcs : List (String × String)) (acc : List (String × List String)) (q : String),
      q ∈ (pcs.foldl groupStep acc).map Prod.fst ↔
        q ∈ acc.map Prod.fst ∨ ∃ pc ∈ pcs, pc.1 = q := by
  intro pcs
  induction pcs with
  | nil => intro acc q; simp
  | cons pc rest ih =>
      intro acc q
      rw [List.foldl_cons, ih (groupStep acc pc) q, groupStep_keys]
      by_cases h : ((acc.map Prod.fst).contains pc.1) = true
      · rw [if_pos h]
        have hmem : pc.1 ∈ acc.map Prod.fst := by
          simpa using h
        constructor
        · rintro (hq | ⟨pc', hpc', rfl⟩)
          · exact Or.inl hq
          · exact Or.inr ⟨pc', List.mem_cons_of_mem _ hpc', rfl⟩
        · rintro (hq | ⟨pc', hpc', rfl⟩)
          · exact Or.inl hq
          · rcases List.mem_cons.mp hpc' with rfl | hpc'
            · exact Or.inl hmem
            · exact Or.inr ⟨pc', hpc', rfl⟩
      · rw [if_neg h]
        constructor
        · rintro (hq | ⟨pc', hpc', rfl⟩)
          · rcases List.mem_append.mp hq with hq | hq
            · exact Or.inl hq
            · rcases List.mem_singleton.mp hq with rfl
              exact Or.inr ⟨pc, List.mem_cons_self _ _, rfl⟩
          · exact Or.inr ⟨pc', List.mem_cons_of_mem _ hpc', rfl⟩
        · rintro (hq | ⟨pc', hpc', rfl⟩)
          · exact Or.inl (List.mem_append.mpr (Or.inl hq))
          · rcases List.mem_cons.mp hpc' with rfl | hpc'
            · exact Or.inl (List.mem_append.mpr (Or.inr (List.mem_singleton.mpr rfl)))
            · exact Or.inr ⟨pc', hpc', rfl⟩

theorem groupAll_keys_mem (pcs : List (String × String)) (q : String) :
    q ∈ (groupAll pcs).map Prod.fst ↔ ∃ pc ∈ pcs, pc.1 = q := by
  rw [groupAll, foldl_groupStep_keys_mem pcs [] q]
  simp

theorem groupStep_mem_elim {acc : List (String × List String)} {pc : String × String}
    {p : String} {sufs : List String} (h : (p, sufs) ∈ groupStep acc pc) :
    (p, sufs) ∈ acc ∨
    (∃ sufs0, (p, sufs0) ∈ acc ∧ p = pc.1 ∧ sufs = sufs0 ++ [pc.2]) ∨
    (p = pc.1 ∧ sufs = [pc.2]) := by
  rw [groupStep] at h
  split at h
  · rw [List.mem_map] at h
    obtain ⟨e, he, heq⟩ := h
    by_cases hk : e.1 = pc.1
    · rw [if_pos hk] at heq
      obtain ⟨a, b⟩ := e
      injection heq with h1 h2
      subst h1
      subst h2
      exact Or.inr (Or.inl ⟨b, he, hk, rfl⟩)
    · rw [if_neg hk] at heq
      subst heq
      exact Or.inl he
  · rcases List.mem_append.mp h with he | he
    · exact Or.inl he
    · rcases List.mem_singleton.mp he with heq
      injection heq with h1 h2
      exact Or.inr (Or.inr ⟨h1, h2⟩)

/-- Every suffix stored in a group comes from one of the folded pairs. -/
theorem foldl_groupStep_sufs (P : String × String → Prop) :
    ∀ (pcs : List (String × String)) (acc : List (String × List String)),
      (∀ p sufs, (p, sufs) ∈ acc → ∀ s ∈ sufs, P (p, s)) →
      (∀ pc ∈ pcs, P pc) →
      ∀ p sufs, (p, sufs) ∈ pcs.foldl groupStep acc → ∀ s ∈ sufs, P (p, s) := by
  intro pcs
  induction pcs with
  | nil => intro acc hacc _ p sufs hmem; exact hacc p sufs hmem
  | cons pc rest ih =>
      intro acc hacc hpcs p sufs hmem
      rw [List.foldl_cons] at hmem
      refine ih (groupStep acc pc) ?_ (fun pc' h => hpcs pc' (List.mem_cons_of_mem _ h))
        p sufs hmem
      intro p' sufs' hmem' s hs
      rcases groupStep_mem_elim hmem' with h | ⟨sufs0, h0, rfl, rfl⟩ | ⟨rfl, rfl⟩
      · exact hacc p' sufs' h s hs
      · rcases List.mem_append.mp hs with hs | hs
        · exact hacc pc.1 sufs0 h0 s hs
        · rcases List.mem_singleton.mp hs with rfl
          exact hpcs pc (List.mem_cons_self _ _)
      · rcases List.mem_singleton.mp hs with rfl
        exact hpcs pc (List.mem_cons_self _ _)

theorem groupAll_sufs {pcs : List (String × String)} {p : String} {sufs : List String}
    (h : (p, sufs) ∈ groupAll pcs) : ∀ s ∈ sufs, (p, s) ∈ pcs := by
  intro s hs
  exact foldl_groupStep_sufs (fun pc => pc ∈ pcs) pcs []
    (fun _ _ hmem => absurd hmem (List.not_mem_nil _)) (fun _ h => h) p sufs h s hs

/-- Conversely, every folded pair lands in its parent's group. -/
theorem foldl_groupStep_covers :
    ∀ (pcs : List (String × String)) (acc : List (String × List String))
      (p : String) (s : String),
      ((p, s) ∈ pcs ∨ ∃ sufs0, (p, sufs0) ∈ acc ∧ s ∈ sufs0) →
      ∃ sufs, (p, sufs) ∈ pcs.foldl groupStep acc ∧ s ∈ sufs := by
  intro pcs
  induction pcs with
  | nil =>
      intro acc p s h
      rcases h with h | ⟨sufs0, h0, hs⟩
      · cases h
      · exact ⟨sufs0, h0, hs⟩
  | cons pc rest ih =>
      intro acc p s h
      rw [List.foldl_cons]
      apply ih (groupStep acc pc) p s
      rcases h with h | ⟨sufs0, h0, hs⟩
      · rcases List.mem_cons.mp h with heq | h
        · subst heq
          right
          rw [groupStep]
          split
          · rename_i hc
            have : ∃ sufs0, (p, sufs0) ∈ acc := by
              have : p ∈ acc.map Prod.fst := by simpa using hc
              rw [List.mem_map] at this
              obtain ⟨e, he, heq⟩ := this
              exact ⟨e.2, by rw [← heq]; exact he⟩
            obtain ⟨sufs0, h0⟩ := this
            refine ⟨sufs0 ++ [s], ?_, by simp⟩
            rw [List.mem_map]
            exact ⟨(p, sufs0), h0, by simp⟩
          · exact ⟨[s], by simp, by simp⟩
        · exact Or.inl h
      · right
        rw [groupStep]
        split
        · refine ⟨if p = pc.1 then sufs0 ++ [pc.2] else sufs0, ?_, ?_⟩
          · rw [List.mem_map]
            refine ⟨(p, sufs0), h0, ?_⟩
            by_cases hp : p = pc.1
            · simp [hp]
            · simp [hp]
          · split
            · simp [hs]
            · exact hs
        · exact ⟨sufs0, List.mem_append.mpr (Or.inl h0), hs⟩

theorem groupAll_covers {pcs : List (String × String)} {p s : String}
    (h : (p, s) ∈ pcs) : ∃ sufs, (p, sufs) ∈ groupAll pcs ∧ s ∈ sufs :=
  foldl_groupStep_covers pcs [] p s (Or.inl h)

/-! ### The parent/children split -/

theorem splitFirstDotAux_spec :
    ∀ {l a b : List Char}, splitFirstDotAux l = some (a, b) →
      l = a ++ '.' :: b ∧ '.' ∉ a := by
  intro l
  induction l with
  | nil => intro a b h; simp [splitFirstDotAux] at h
  | cons c cs ih =>
      intro a b h
      rw [splitFirstDotAux] at h
      by_cases hc : c = '.'
      · rw [if_pos hc] at h
        injection h with h
        injection h with h1 h2
        subst h1
        subst h2
        subst hc
        exact ⟨rfl, List.not_mem_nil _⟩
      · rw [if_neg hc] at h
        rw [Option.map_eq_some'] at h
        obtain ⟨⟨a', b'⟩, hp, heq⟩ := h
        injection heq with h1 h2
        subst h1
        subst h2
        obtain ⟨hl, hnm⟩ := ih hp
        refine ⟨by rw [hl]; rfl, ?_⟩
        intro hmem
        rcases List.mem_cons.mp hmem with heq | hmem
        · exact hc heq.symm
        · exact hnm hmem

theorem splitFirstDotAux_append :
    ∀ {a : List Char}, '.' ∉ a → ∀ b : List Char,
      splitFirstDotAux (a ++ '.' :: b) = some (a, b) := by
  intro a
  induction a with
  | nil => intro _ b; simp [splitFirstDotAux]
  | cons c cs ih =>
      intro h b
      have hc : c ≠ '.' := fun hc => h (hc ▸ List.mem_cons_self c cs)
      have hcs : '.' ∉ cs := fun hm => h (List.mem_cons_of_mem c hm)
      rw [List.cons_append, splitFirstDotAux, if_neg hc, ih hcs b]
      rfl

theorem string_ne_empty_data {s : String} (h : s ≠ "") : s.data ≠ [] := by
  intro hd
  exact h (String.ext hd)

theorem seperateParentFromChildren_spec {t p s : String}
    (h : seperateParentFromChildren t = some (p, s)) :
    t = p ++ "." ++ s ∧ containsDot p = false ∧ s ≠ "" := by
  rw [seperateParentFromChildren] at h
  split at h
  · rename_i a b heq
    obtain ⟨hl, hnm⟩ := splitFirstDotAux_spec heq
    split at h
    · cases h
    · rename_i hne
      injection h with h
      injection h with h1 h2
      subst h1
      subst h2
      refine ⟨?_, ?_, ?_⟩
      · apply String.ext
        simp [string_data_append, hl]
      · have : ¬ ((String.mk a).data.contains '.' = true) :=
          fun hc => hnm (List.elem_iff.mp hc)
        simpa [containsDot] using this
      · intro hs
        have := congrArg String.data hs
        simp at this
        subst this
        simp at hne
  · cases h

theorem seperateParentFromChildren_join (p s : String) (hdot : containsDot p = false)
    (hs : s ≠ "") : seperateParentFromChildren (p ++ "." ++ s) = some (p, s) := by
  rw [seperateParentFromChildren]
  have hdata : (p ++ "." ++ s).data = p.data ++ '.' :: s.data := by
    simp [string_data_append]
  rw [hdata, splitFirstDotAux_append (containsDot_false_not_mem hdot) s.data]
  have hne : s.data.isEmpty = false := by
    rcases hd : s.data with _ | ⟨c, cs⟩
    · exact absurd (String.ext hd) hs
    · rfl
  simp [hne]

theorem splitAll_mem :
    ∀ {l : List String} {pcs : List (String × String)}, splitAll l = some pcs →
      (∀ pc ∈ pcs, ∃ t ∈ l, seperateParentFromChildren t = some pc) ∧
      (∀ t ∈ l, ∃ pc ∈ pcs, seperateParentFromChildren t = some pc) := by
  intro l
  induction l with
  | nil =>
      intro pcs h
      rw [splitAll] at h
      injection h with h
      subst h
      exact ⟨fun pc hpc => absurd hpc (List.not_mem_nil _),
        fun t ht => absurd ht (List.not_mem_nil _)⟩
  | cons t rest ih =>
      intro pcs h
      rw [splitAll] at h
      split at h
      · cases h
      · rename_i pc hpc
        rw [Option.map_eq_some'] at h
        obtain ⟨pcs', hrest, rfl⟩ := h
        obtain ⟨h1, h2⟩ := ih hrest
        constructor
        · intro pc' hpc'
          rcases List.mem_cons.mp hpc' with rfl | hpc'
          · exact ⟨t, List.mem_cons_self _ _, hpc⟩
          · obtain ⟨t', ht', hs⟩ := h1 pc' hpc'
            exact ⟨t', List.mem_cons_of_mem _ ht', hs⟩
        · intro t' ht'
          rcases List.mem_cons.mp ht' with rfl | ht'
          · exact ⟨pc, List.mem_cons_self _ _, hpc⟩
          · obtain ⟨pc', hpc', hs⟩ := h2 t' ht'
            exact ⟨pc', List.mem_cons_of_mem _ hpc', hs⟩

/-! ### Characterizing a successful redaction -/

/-- The `secretKeys` of `recursiveToString`. -/
def secretKeysOf (secrets : List String) (config : List (String × Value)) : List String :=
  (config.map Prod.fst).filter
    (fun k => (seperateSecretsByNestLevel secrets).1.contains k)

/-- The `sanatizedSecrets` object of `recursiveToString`. -/
def sanOf (secrets : List String) (config : List (String × Value)) :
    List (String × Value) :=
  (secretKeysOf secrets config).map (fun k => (k, Value.str "[secret]"))

theorem recursiveToString_elim {secrets : List String} {config out : List (String × Value)}
    (h : recursiveToString secrets config = some out) :
    ∃ pcs nested,
      splitAll (seperateSecretsByNestLevel secrets).2 = some pcs ∧
      redactParentList config (groupAll pcs) = some nested ∧
      out = spreadMerge (spreadMerge config (sanOf secrets config)) nested := by
  rw [recursiveToString] at h
  split at h
  · cases h
  · rename_i pcs hpcs
    simp only [] at h
    split at h
    · cases h
    · rename_i nested hnested
      injection h with h
      exact ⟨pcs, nested, hpcs, hnested, h.symm⟩

theorem recursiveToString_intro {secrets : List String}
    {config : List (String × Value)} {pcs : List (String × String)}
    {nested : List (String × Value)}
    (h1 : splitAll (seperateSecretsByNestLevel secrets).2 = some pcs)
    (h2 : redactParentList config (groupAll pcs) = some nested) :
    recursiveToString secrets config =
      some (spreadMerge (spreadMerge config (sanOf secrets config)) nested) := by
  rw [groupAll] at h2
  rw [recursiveToString]
  split
  · rename_i hn
    rw [h1] at hn
    cases hn
  · rename_i pcs' hpcs'
    rw [h1] at hpcs'
    injection hpcs' with hpcs'
    subst hpcs'
    simp only []
    split
    · rename_i hn
      rw [h2] at hn
      cases hn
    · rename_i nested' hnested'
      rw [h2] at hnested'
      injection hnested' with hnested'
      subst hnested'
      rfl

/-- A successful redaction is the pointwise override of the input config:
each entry's value is replaced by its nested redaction if its key is a
grouped parent, else by the marker if its key is a current-level secret,
else kept. -/
theorem rts_out_eq {secrets : List String} {config out : List (String × Value)}
    (h : recursiveToString secrets config = some out) :
    ∃ pcs nested,
      splitAll (seperateSecretsByNestLevel secrets).2 = some pcs ∧
      redactParentList config (groupAll pcs) = some nested ∧
      out = config.map (fun e => (e.1,
        (nested.lookup e.1).getD (((sanOf secrets config).lookup e.1).getD e.2))) := by
  obtain ⟨pcs, nested, hpcs, hnested, hout⟩ := recursiveToString_elim h
  refine ⟨pcs, nested, hpcs, hnested, ?_⟩
  have hsan : ∀ e ∈ sanOf secrets config, e.1 ∈ config.map Prod.fst := by
    intro e he
    rw [sanOf, List.mem_map] at he
    obtain ⟨k, hk, rfl⟩ := he
    rw [secretKeysOf] at hk
    exact List.mem_of_mem_filter hk
  have hm1 : spreadMerge config (sanOf secrets config) =
      config.map (fun e => (e.1, ((sanOf secrets config).lookup e.1).getD e.2)) :=
    spreadMerge_subset_eq _ _ hsan
  have hm1keys : (spreadMerge config (sanOf secrets config)).map Prod.fst =
      config.map Prod.fst := spreadMerge_subset_keys _ _ hsan
  have hnkeys : ∀ e ∈ nested,
      e.1 ∈ (spreadMerge config (sanOf secrets config)).map Prod.fst := by
    intro e he
    rw [hm1keys]
    obtain ⟨hkeys, hlook⟩ := redactParentList_keys hnested
    have he1 : e.1 ∈ (groupAll pcs).map Prod.fst := by
      rw [← hkeys]
      exact List.mem_map.mpr ⟨e, he, rfl⟩
    rw [List.mem_map] at he1
    obtain ⟨g, hg, heq⟩ := he1
    obtain ⟨sub, hsub⟩ := hlook g hg
    rw [← heq]
    exact lookup_mem_keys hsub
  rw [hout, spreadMerge_subset_eq _ _ hnkeys, hm1, List.map_map]
  rfl

theorem rts_idem_aux (n : Nat) :
    ∀ config : List (String × Value), vlsize config ≤ n →
      ∀ secrets out, recursiveToString secrets config = some out →
        recursiveToString secrets out = some out := by
  induction n using Nat.strong_induction_on with
  | _ n ih =>
    intro config hw secrets out h
    obtain ⟨pcs, nested, hpcs, hnested, hout⟩ := rts_out_eq h
    have houtkeys : out.map Prod.fst = config.map Prod.fst := by
      rw [hout]
      exact map_fst_map_entry _ config
    have hsan_eq : sanOf secrets out = sanOf secrets config := by
      rw [sanOf, sanOf, secretKeysOf, secretKeysOf, houtkeys]
    have hgnd := groupAll_keys_nodup pcs
    have houtlk : ∀ p sufs, (p, sufs) ∈ groupAll pcs →
        ∀ sub r, config.lookup p = some (Value.obj sub) →
          recursiveToString sufs sub = some r →
          out.lookup p = some (Value.obj r) := by
      intro p sufs hg sub r hsub hr
      obtain ⟨sub', r', hsub', hr', hnl⟩ := redactParentList_lookup hnested hgnd p sufs hg
      rw [hsub] at hsub'
      injection hsub' with hsub'
      injection hsub' with hsub'
      subst hsub'
      rw [hr] at hr'
      injection hr' with hr'
      subst hr'
      obtain ⟨e0, he0, hefst, hesnd, hlk⟩ := lookup_map_entry
        (fun e => (nested.lookup e.1).getD (((sanOf secrets config).lookup e.1).getD e.2))
        config p _ hsub
      rw [hout, hlk]
      show some ((nested.lookup e0.1).getD _) = _
      rw [hefst, hnl]
      rfl
    have hnested2 : redactParentList out (groupAll pcs) = some nested := by
      have inner : ∀ l, (∀ g ∈ l, g ∈ groupAll pcs) → ∀ ns,
          redactParentList config l = some ns → redactParentList out l = some ns := by
        intro l
        induction l with
        | nil =>
            intro _ ns hns
            rw [redactParentList_nil] at hns
            injection hns with hns
            subst hns
            exact redactParentList_nil out
        | cons g rest ihl =>
            intro hsubm ns hns
            obtain ⟨sub, r, rs, hlk, hr, hrs, rfl⟩ := redactParentList_cons_elim hns
            obtain ⟨p, sufs⟩ := g
            have hgmem : (p, sufs) ∈ groupAll pcs := hsubm _ (List.mem_cons_self _ _)
            have hol : out.lookup p = some (Value.obj r) :=
              houtlk p sufs hgmem sub r hlk hr
            have hsubw : vlsize sub < n := by
              have := vsize_lookup hlk
              simp [Value.vsize] at this
              omega
            have hidem : recursiveToString sufs r = some r :=
              ih (vlsize sub) hsubw sub le_rfl sufs r hr
            exact redactParentList_cons_intro hol hidem
              (ihl (fun g' h' => hsubm g' (List.mem_cons_of_mem _ h')) rs hrs)
      exact inner (groupAll pcs) (fun g h => h) nested hnested
    have h2 := recursiveToString_intro hpcs hnested2
    rw [h2]
    congr 1
    have hsanout : ∀ e ∈ sanOf secrets out, e.1 ∈ out.map Prod.fst := by
      intro e he
      rw [sanOf, List.mem_map] at he
      obtain ⟨k, hk, rfl⟩ := he
      rw [secretKeysOf] at hk
      exact List.mem_of_mem_filter hk
    have hm1keys : (spreadMerge out (sanOf secrets out)).map Prod.fst =
        out.map Prod.fst := spreadMerge_subset_keys _ _ hsanout
    have hnout : ∀ e ∈ nested,
        e.1 ∈ (spreadMerge out (sanOf secrets out)).map Prod.fst := by
      intro e he
      rw [hm1keys, houtkeys]
      obtain ⟨hkeys, hlook⟩ := redactParentList_keys hnested
      have he1 : e.1 ∈ (groupAll pcs).map Prod.fst := by
        rw [← hkeys]
        exact List.mem_map.mpr ⟨e, he, rfl⟩
      rw [List.mem_map] at he1
      obtain ⟨g, hg, heq⟩ := he1
      obtain ⟨sub, hsub⟩ := hlook g hg
      rw [← heq]
      exact lookup_mem_keys hsub
    rw [spreadMerge_subset_eq _ _ hnout, spreadMerge_subset_eq _ _ hsanout,
      List.map_map, hsan_eq]
    conv_rhs => rw [hout]
    rw [hout, List.map_map]
    apply List.map_congr_left
    intro e _
    show (e.1, (nested.lookup e.1).getD (((sanOf secrets config).lookup e.1).getD
        ((nested.lookup e.1).getD (((sanOf secrets config).lookup e.1).getD e.2)))) =
      (e.1, (nested.lookup e.1).getD (((sanOf secrets config).lookup e.1).getD e.2))
    cases hb : nested.lookup e.1 <;> cases hc : (sanOf secrets config).lookup e.1 <;> simp

/-- C8: the redactor is idempotent — redacting an already-redacted config
with the same secret path list yields the same result (on the domain where
the redaction is defined, i.e. succeeds). -/
theorem C8_redact_idempotent (secrets : List String) (config out : List (String × Value))
    (h : recursiveToString secrets config = some out) :
    recursiveToString secrets out = some out :=
  rts_idem_aux (vlsize config) config le_rfl secrets out h

theorem C8_witness :
    recursiveToString ["a"] [("a", Value.str "x")] = some [("a", Value.str "[secret]")] ∧
    recursiveToString ["a"] [("a", Value.str "[secret]")] =
      some [("a", Value.str "[secret]")] := by
  have h1 : splitAll (seperateSecretsByNestLevel ["a"]).2 = some [] := by rfl
  have h2 : redactParentList [("a", Value.str "x")] (groupAll []) = some [] :=
    redactParentList_nil _
  have hs := recursiveToString_intro h1 h2
  have hval : spreadMerge (spreadMerge [("a", Value.str "x")]
      (sanOf ["a"] [("a", Value.str "x")])) [] = [("a", Value.str "[secret]")] := by rfl
  rw [hval] at hs
  exact ⟨hs, C8_redact_idempotent ["a"] _ _ hs⟩

/-! ### Ancestor relations on dotted paths -/

/-- Path `s` is a proper dotted ancestor of `t`. -/
def dotAncestor (s t : String) : Prop := ∃ r : String, t = s ++ "." ++ r

/-- Segment list `a` is an initial segment of `b` (the position `b` lies at
or below the position `a`). -/
def segsLead (a b : List String) : Prop := ∃ r : List String, b = a ++ r

theorem sep_snd_eq (secrets : List String) :
    (seperateSecretsByNestLevel secrets).2 = secrets.filter (fun s => containsDot s) :=
  rfl

theorem sep_fst_mem (secrets : List String) (s : String) :
    s ∈ (seperateSecretsByNestLevel secrets).1 ↔
      s ∈ secrets ∧ containsDot s = false := by
  show s ∈ secrets.filter _ ↔ _
  rw [List.mem_filter]
  constructor
  · rintro ⟨hmem, hdec⟩
    refine ⟨hmem, ?_⟩
    rw [decide_eq_true_iff] at hdec
    cases hdot : containsDot s with
    | false => rfl
    | true =>
        exfalso
        apply hdec
        exact List.elem_iff.mpr (List.mem_filter.mpr ⟨hmem, hdot⟩)
  · rintro ⟨hmem, hdot⟩
    refine ⟨hmem, ?_⟩
    rw [decide_eq_true_iff]
    intro hc
    have hmf := List.mem_filter.mp (List.elem_iff.mp hc)
    rw [hdot] at hmf
    cases hmf.2

theorem sep_snd_mem (secrets : List String) (s : String) :
    s ∈ (seperateSecretsByNestLevel secrets).2 ↔
      s ∈ secrets ∧ containsDot s = true := by
  rw [sep_snd_eq, List.mem_filter]

/-- For an ancestor-free secret list, every secret path that denotes a
position of the config is replaced by the marker in the redacted output. -/
theorem rts_redacts_aux (n : Nat) :
    ∀ config : List (String × Value), vlsize config ≤ n →
      ∀ secrets out, recursiveToString secrets config = some out →
        (∀ s ∈ secrets, ∀ t ∈ secrets, ¬ dotAncestor s t) →
        ∀ s ∈ secrets, valueAtSegs config (dottedSegs s) ≠ none →
          valueAtSegs out (dottedSegs s) = some (Value.str "[secret]") := by
  induction n using Nat.strong_induction_on with
  | _ n ih =>
    intro config hw secrets out h hanc s hsmem hpres
    obtain ⟨pcs, nested, hpcs, hnested, hout⟩ := rts_out_eq h
    cases hd : containsDot s with
    | true =>
        have hsdeep : s ∈ (seperateSecretsByNestLevel secrets).2 :=
          (sep_snd_mem secrets s).mpr ⟨hsmem, hd⟩
        obtain ⟨pc, hpcmem, hsplit⟩ := (splitAll_mem hpcs).2 s hsdeep
        obtain ⟨p0, s0⟩ := pc
        obtain ⟨hteq, hpdot, hs0ne⟩ := seperateParentFromChildren_spec hsplit
        subst hteq
        rw [dottedSegs_append p0 s0 hpdot] at hpres ⊢
        rw [valueAtSegs_cons _ _ _ (dottedSegs_ne_nil s0)] at hpres
        cases hlp : config.lookup p0 with
        | none =>
            rw [hlp] at hpres
            exact absurd rfl hpres
        | some v0 =>
            cases v0 with
            | str s1 =>
                rw [hlp] at hpres
                exact absurd rfl hpres
            | undef =>
                rw [hlp] at hpres
                exact absurd rfl hpres
            | lit m =>
                rw [hlp] at hpres
                exact absurd rfl hpres
            | obj sub =>
                rw [hlp] at hpres
                have hpres' : valueAtSegs sub (dottedSegs s0) ≠ none := hpres
                obtain ⟨sufs, hgmem, hs0in⟩ := groupAll_covers hpcmem
                obtain ⟨sub', r, hsub', hr, hnl⟩ :=
                  redactParentList_lookup hnested (groupAll_keys_nodup pcs) p0 sufs hgmem
                rw [hlp] at hsub'
                injection hsub' with hsub'
                injection hsub' with hsub'
                subst hsub'
                have hanc' : ∀ a ∈ sufs, ∀ b ∈ sufs, ¬ dotAncestor a b := by
                  intro a ha b hb hab
                  have hpa := groupAll_sufs hgmem a ha
                  have hpb := groupAll_sufs hgmem b hb
                  obtain ⟨ta, hta, hsa⟩ := (splitAll_mem hpcs).1 (p0, a) hpa
                  obtain ⟨tb, htb, hsb⟩ := (splitAll_mem hpcs).1 (p0, b) hpb
                  have hta_eq := (seperateParentFromChildren_spec hsa).1
                  have htb_eq := (seperateParentFromChildren_spec hsb).1
                  have hta_sec : ta ∈ secrets := ((sep_snd_mem secrets ta).mp hta).1
                  have htb_sec : tb ∈ secrets := ((sep_snd_mem secrets tb).mp htb).1
                  obtain ⟨rr, hrr⟩ := hab
                  apply hanc ta hta_sec tb htb_sec
                  refine ⟨rr, ?_⟩
                  rw [htb_eq, hrr, hta_eq]
                  apply String.ext
                  simp [string_data_append]
                have hsub_w : vlsize sub < n := by
                  have := vsize_lookup hlp
                  simp [Value.vsize] at this
                  omega
                have hih := ih (vlsize sub) hsub_w sub le_rfl sufs r hr hanc' s0 hs0in hpres'
                rw [hout]
                obtain ⟨e0, he0, hefst, hesnd, hlkmap⟩ := lookup_map_entry
                  (fun e => (nested.lookup e.1).getD
                    (((sanOf secrets config).lookup e.1).getD e.2)) config p0 _ hlp
                rw [valueAtSegs_cons _ _ _ (dottedSegs_ne_nil s0), hlkmap, hefst, hnl]
                simpa using hih
    | false =>
        have hsnn : s ∈ (seperateSecretsByNestLevel secrets).1 :=
          (sep_fst_mem secrets s).mpr ⟨hsmem, hd⟩
        rw [dottedSegs_no_dot s hd] at hpres ⊢
        rw [valueAtSegs_single] at hpres ⊢
        cases hlp : config.lookup s with
        | none =>
            rw [hlp] at hpres
            exact absurd rfl hpres
        | some v0 =>
            have hsnotg : s ∉ (groupAll pcs).map Prod.fst := by
              intro hmem
              rw [groupAll_keys_mem] at hmem
              obtain ⟨pc, hpcmem, hpc1⟩ := hmem
              obtain ⟨pp, cc⟩ := pc
              have hpp : pp = s := hpc1
              obtain ⟨t, ht, hsplitt⟩ := (splitAll_mem hpcs).1 (pp, cc) hpcmem
              obtain ⟨hteq, _, _⟩ := seperateParentFromChildren_spec hsplitt
              have htsec : t ∈ secrets := ((sep_snd_mem secrets t).mp ht).1
              apply hanc s hsmem t htsec
              refine ⟨cc, ?_⟩
              rw [hteq, hpp]
            have hnl : nested.lookup s = none := by
              rw [lookup_eq_none_iff]
              intro hmem
              apply hsnotg
              rw [← (redactParentList_keys hnested).1]
              exact hmem
            have hsl : (sanOf secrets config).lookup s = some (Value.str "[secret]") := by
              rw [sanOf, lookup_const_map, if_pos]
              rw [secretKeysOf, List.mem_filter]
              exact ⟨lookup_mem_keys hlp, List.elem_iff.mpr hsnn⟩
            rw [hout]
            obtain ⟨e0, he0, hefst, hesnd, hlkmap⟩ := lookup_map_entry
              (fun e => (nested.lookup e.1).getD
                (((sanOf secrets config).lookup e.1).getD e.2)) config s _ hlp
            rw [hlkmap, hefst, hnl, hsl]
            rfl

/-- A leaf position none of whose dotted ancestors (itself included) is a
secret keeps its exact value under redaction. -/
theorem rts_keeps_aux (n : Nat) :
    ∀ config : List (String × Value), vlsize config ≤ n →
      ∀ secrets out, recursiveToString secrets config = some out →
        ∀ (p : List String) (v : Value), valueAtSegs config p = some v →
          (∀ sub, v ≠ Value.obj sub) →
          (∀ s ∈ secrets, ¬ segsLead (dottedSegs s) p) →
          valueAtSegs out p = some v := by
  induction n using Nat.strong_induction_on with
  | _ n ih =>
    intro config hw secrets out h p v hp hv hnp
    obtain ⟨pcs, nested, hpcs, hnested, hout⟩ := rts_out_eq h
    have hsl : ∀ k : String, p = k :: p.tail →
        (sanOf secrets config).lookup k = none := by
      intro k hpk
      rw [sanOf, lookup_const_map, if_neg]
      intro hmem
      rw [secretKeysOf, List.mem_filter] at hmem
      have hknn : k ∈ (seperateSecretsByNestLevel secrets).1 :=
        List.elem_iff.mp hmem.2
      obtain ⟨hksec, hkdot⟩ := (sep_fst_mem secrets k).mp hknn
      apply hnp k hksec
      rw [dottedSegs_no_dot k hkdot, hpk]
      exact ⟨p.tail, rfl⟩
    cases p with
    | nil => simp [valueAtSegs] at hp
    | cons k rest =>
        cases rest with
        | nil =>
            rw [valueAtSegs_single] at hp ⊢
            have hsl1 : (sanOf secrets config).lookup k = none := hsl k rfl
            have hnl : nested.lookup k = none := by
              cases hnlk : nested.lookup k with
              | none => rfl
              | some w =>
                  exfalso
                  have hkg : k ∈ (groupAll pcs).map Prod.fst := by
                    rw [← (redactParentList_keys hnested).1]
                    exact lookup_mem_keys hnlk
                  rw [List.mem_map] at hkg
                  obtain ⟨g, hg, hgk⟩ := hkg
                  obtain ⟨sub, hsub⟩ := (redactParentList_keys hnested).2 g hg
                  rw [hgk, hp] at hsub
                  injection hsub with hsub
                  exact hv sub hsub
            rw [hout]
            obtain ⟨e0, he0, hefst, hesnd, hlkmap⟩ := lookup_map_entry
              (fun e => (nested.lookup e.1).getD
                (((sanOf secrets config).lookup e.1).getD e.2)) config k _ hp
            rw [hlkmap, hefst, hnl, hsl1, hesnd]
            rfl
        | cons k2 rest2 =>
            rw [valueAtSegs_cons _ _ _ (by simp)] at hp ⊢
            cases hlp : config.lookup k with
            | none =>
                rw [hlp] at hp
                cases hp
            | some v0 =>
                cases v0 with
                | str s1 => rw [hlp] at hp; cases hp
                | undef => rw [hlp] at hp; cases hp
                | lit m => rw [hlp] at hp; cases hp
                | obj sub =>
                    rw [hlp] at hp
                    have hp' : valueAtSegs sub (k2 :: rest2) = some v := hp
                    have hsl1 : (sanOf secrets config).lookup k = none := hsl k rfl
                    cases hgk : nested.lookup k with
                    | none =>
                        rw [hout]
                        obtain ⟨e0, he0, hefst, hesnd, hlkmap⟩ := lookup_map_entry
                          (fun e => (nested.lookup e.1).getD
                            (((sanOf secrets config).lookup e.1).getD e.2)) config k _ hlp
                        rw [hlkmap, hefst, hgk, hsl1, hesnd]
                        simpa using hp'
                    | some w =>
                        have hkg : k ∈ (groupAll pcs).map Prod.fst := by
                          rw [← (redactParentList_keys hnested).1]
                          exact lookup_mem_keys hgk
                        rw [List.mem_map] at hkg
                        obtain ⟨g, hg, hgk1⟩ := hkg
                        obtain ⟨pp, sufs⟩ := g
                        have hpp : pp = k := hgk1
                        subst hpp
                        obtain ⟨sub', r, hsub', hr, hnl⟩ := redactParentList_lookup
                          hnested (groupAll_keys_nodup pcs) pp sufs hg
                        rw [hlp] at hsub'
                        injection hsub' with hsub'
                        injection hsub' with hsub'
                        subst hsub'
                        have hnp' : ∀ s' ∈ sufs, ¬ segsLead (dottedSegs s') (k2 :: rest2) := by
                          intro s' hs' hlead
                          have hps' := groupAll_sufs hg s' hs'
                          obtain ⟨t, ht, hsplitt⟩ := (splitAll_mem hpcs).1 (pp, s') hps'
                          obtain ⟨hteq, hppdot, _⟩ := seperateParentFromChildren_spec hsplitt
                          have htsec : t ∈ secrets := ((sep_snd_mem secrets t).mp ht).1
                          apply hnp t htsec
                          rw [hteq, dottedSegs_append pp s' hppdot]
                          obtain ⟨rr, hrr⟩ := hlead
                          exact ⟨rr, by rw [List.cons_append, ← hrr]⟩
                        have hsub_w : vlsize sub < n := by
                          have := vsize_lookup hlp
                          simp [Value.vsize] at this
                          omega
                        have hihv := ih (vlsize sub) hsub_w sub le_rfl sufs r hr
                          (k2 :: rest2) v hp' hv hnp'
                        rw [hout]
                        obtain ⟨e0, he0, hefst, hesnd, hlkmap⟩ := lookup_map_entry
                          (fun e => (nested.lookup e.1).getD
                            (((sanOf secrets config).lookup e.1).getD e.2)) config pp _ hlp
                        rw [hlkmap, hefst, hnl]
                        simpa using hihv

/-- C3 counterexample: with the secret-path list `["a", "a.b"]` — the path
`"a"` together with its descendant `"a.b"` — the nested redaction of `"a"`
overrides the whole-value redaction, so the value at `"a"`, whose own path
is in the list, is not the marker: the claimed iff fails as stated. -/
theorem C3_counterexample :
    recursiveToString ["a", "a.b"]
        [("a", Value.obj [("b", Value.str "x"), ("c", Value.str "y")])] =
      some [("a", Value.obj [("b", Value.str "[secret]"), ("c", Value.str "y")])] ∧
    valueAtSegs [("a", Value.obj [("b", Value.str "[secret]"), ("c", Value.str "y")])]
        (dottedSegs "a") ≠ some (Value.str "[secret]") := by
  have hinner : recursiveToString ["b"] [("b", Value.str "x"), ("c", Value.str "y")] =
      some [("b", Value.str "[secret]"), ("c", Value.str "y")] := by
    have h1 : splitAll (seperateSecretsByNestLevel ["b"]).2 = some [] := rfl
    have h2 : redactParentList [("b", Value.str "x"), ("c", Value.str "y")]
        (groupAll []) = some [] := redactParentList_nil _
    have hs := recursiveToString_intro h1 h2
    have hval : spreadMerge (spreadMerge [("b", Value.str "x"), ("c", Value.str "y")]
        (sanOf ["b"] [("b", Value.str "x"), ("c", Value.str "y")])) [] =
        [("b", Value.str "[secret]"), ("c", Value.str "y")] := rfl
    rw [hval] at hs
    exact hs
  constructor
  · have h1 : splitAll (seperateSecretsByNestLevel ["a", "a.b"]).2 =
        some [("a", "b")] := rfl
    have hg : groupAll [("a", "b")] = [("a", ["b"])] := rfl
    have h2 : redactParentList
        [("a", Value.obj [("b", Value.str "x"), ("c", Value.str "y")])]
        (groupAll [("a", "b")]) =
        some [("a", Value.obj [("b", Value.str "[secret]"), ("c", Value.str "y")])] := by
      rw [hg]
      exact redactParentList_cons_intro rfl hinner (redactParentList_nil _)
    have hs := recursiveToString_intro h1 h2
    have hval : spreadMerge (spreadMerge
        [("a", Value.obj [("b", Value.str "x"), ("c", Value.str "y")])]
        (sanOf ["a", "a.b"]
          [("a", Value.obj [("b", Value.str "x"), ("c", Value.str "y")])]))
        [("a", Value.obj [("b", Value.str "[secret]"), ("c", Value.str "y")])] =
        [("a", Value.obj [("b", Value.str "[secret]"), ("c", Value.str "y")])] := rfl
    rw [hval] at hs
    exact hs
  · intro hcontra
    have hval : valueAtSegs
        [("a", Value.obj [("b", Value.str "[secret]"), ("c", Value.str "y")])]
        (dottedSegs "a") =
        some (Value.obj [("b", Value.str "[secret]"), ("c", Value.str "y")]) := rfl
    rw [hval] at hcontra
    injection hcontra with hcontra
    cases hcontra

/-- C3 amended: provided no secret path is a proper dotted ancestor of
another secret path (which holds for every resolver-produced list, where a
recorded path is never extended below itself), redaction is exact on the
domain where it is defined: (1) every secret path that denotes a position
of the config carries the marker `"[secret]"` in the output, and (2) every
non-object value whose position has no secret among its dotted ancestors
(itself included) is returned unchanged.  The "structural copy, input not
mutated" part of the claim is inherent in this purely functional model of
the source. -/
theorem C3_redaction_amended (secrets : List String) (config out : List (String × Value))
    (hs : recursiveToString secrets config = some out)
    (hanc : ∀ s ∈ secrets, ∀ t ∈ secrets, ¬ dotAncestor s t) :
    (∀ s ∈ secrets, valueAtSegs config (dottedSegs s) ≠ none →
      valueAtSegs out (dottedSegs s) = some (Value.str "[secret]")) ∧
    (∀ (p : List String) (v : Value), valueAtSegs config p = some v →
      (∀ sub, v ≠ Value.obj sub) →
      (∀ s ∈ secrets, ¬ segsLead (dottedSegs s) p) →
      valueAtSegs out p = some v) :=
  ⟨rts_redacts_aux (vlsize config) config le_rfl secrets out hs hanc,
   fun p v hp hv hnp =>
     rts_keeps_aux (vlsize config) config le_rfl secrets out hs p v hp hv hnp⟩

theorem C3_witness :
    recursiveToString ["a.b"]
        [("a", Value.obj [("b", Value.str "x"), ("c", Value.str "y")])] =
      some [("a", Value.obj [("b", Value.str "[secret]"), ("c", Value.str "y")])] ∧
    valueAtSegs [("a", Value.obj [("b", Value.str "[secret]"), ("c", Value.str "y")])]
        (dottedSegs "a.b") = some (Value.str "[secret]") ∧
    valueAtSegs [("a", Value.obj [("b", Value.str "[secret]"), ("c", Value.str "y")])]
        ["a", "c"] = some (Value.str "y") := by
  have hinner : recursiveToString ["b"] [("b", Value.str "x"), ("c", Value.str "y")] =
      some [("b", Value.str "[secret]"), ("c", Value.str "y")] := by
    have h1 : splitAll (seperateSecretsByNestLevel ["b"]).2 = some [] := rfl
    have h2 : redactParentList [("b", Value.str "x"), ("c", Value.str "y")]
        (groupAll []) = some [] := redactParentList_nil _
    have hs := recursiveToString_intro h1 h2
    have hval : spreadMerge (spreadMerge [("b", Value.str "x"), ("c", Value.str "y")]
        (sanOf ["b"] [("b", Value.str "x"), ("c", Value.str "y")])) [] =
        [("b", Value.str "[secret]"), ("c", Value.str "y")] := rfl
    rw [hval] at hs
    exact hs
  have hs : recursiveToString ["a.b"]
      [("a", Value.obj [("b", Value.str "x"), ("c", Value.str "y")])] =
      some [("a", Value.obj [("b", Value.str "[secret]"), ("c", Value.str "y")])] := by
    have h1 : splitAll (seperateSecretsByNestLevel ["a.b"]).2 = some [("a", "b")] := rfl
    have hg : groupAll [("a", "b")] = [("a", ["b"])] := rfl
    have h2 : redactParentList
        [("a", Value.obj [("b", Value.str "x"), ("c", Value.str "y")])]
        (groupAll [("a", "b")]) =
        some [("a", Value.obj [("b", Value.str "[secret]"), ("c", Value.str "y")])] := by
      rw [hg]
      exact redactParentList_cons_intro rfl hinner (redactParentList_nil _)
    have hres := recursiveToString_intro h1 h2
    have hval : spreadMerge (spreadMerge
        [("a", Value.obj [("b", Value.str "x"), ("c", Value.str "y")])]
        (sanOf ["a.b"]
          [("a", Value.obj [("b", Value.str "x"), ("c", Value.str "y")])]))
        [("a", Value.obj [("b", Value.str "[secret]"), ("c", Value.str "y")])] =
        [("a", Value.obj [("b", Value.str "[secret]"), ("c", Value.str "y")])] := rfl
    rw [hval] at hres
    exact hres
  have hanc : ∀ s ∈ ["a.b"], ∀ t ∈ ["a.b"], ¬ dotAncestor s t := by
    intro s hsmem t htmem hab
    rcases List.mem_singleton.mp hsmem with rfl
    rcases List.mem_singleton.mp htmem with rfl
    obtain ⟨r, hr⟩ := hab
    have := congrArg (fun u : String => u.data.length) hr
    simp [string_data_append] at this
  have hmain := C3_redaction_amended ["a.b"]
    [("a", Value.obj [("b", Value.str "x"), ("c", Value.str "y")])]
    [("a", Value.obj [("b", Value.str "[secret]"), ("c", Value.str "y")])] hs hanc
  refine ⟨hs, ?_, ?_⟩
  · exact hmain.1 "a.b" (List.mem_singleton.mpr rfl) (by
      intro hcontra
      have : valueAtSegs [("a", Value.obj [("b", Value.str "x"), ("c", Value.str "y")])]
          (dottedSegs "a.b") = some (Value.str "x") := rfl
      rw [this] at hcontra
      cases hcontra)
  · have hp : valueAtSegs [("a", Value.obj [("b", Value.str "x"), ("c", Value.str "y")])]
        ["a", "c"] = some (Value.str "y") := rfl
    refine hmain.2 ["a", "c"] (Value.str "y") hp (fun sub h => by cases h) ?_
    intro s hsmem hlead
    rcases List.mem_singleton.mp hsmem with rfl
    obtain ⟨r, hr⟩ := hlead
    have hsegs : dottedSegs "a.b" = ["a", "b"] := rfl
    rw [hsegs] at hr
    simp at hr

end EnvVerifier
